import Mathlib

/-!
The gcl pipeline library (`include/pipeline.h`).

A shallow embedding of the filter hierarchy, the plan algebra (`operator|`),
the execution-graph construction (`PipelineExecution`) and the worker loop
(`RunFilter`), followed by theorems about them.

Conventions of the embedding.

* C++ template parameters are erased: every item type is the universal
  value type `Val`, whose constructor `Val.term` is `PipelineTerm()`.
* A `function<OUT (IN)>` is an effectful callable: it reads and writes the
  queues of the `World` and may throw.  `throw;` outside a handler calls
  `std::terminate` and is the fault `Fault.terminate`.
* A pointer that the source tests against `NULL` is an `Option` (or the
  `NULL` constructor of the segment list); dereferencing `NULL` makes the
  operation fail.
* `assert(e)` aborts when `e` is false; when the translation unit is compiled
  with `NDEBUG` it does nothing.  Functions that reach an `assert` take the
  build mode as the parameter `ndebug`.
* `clone()` allocates structurally identical nodes.  The value model below
  has no addresses, so a clone is an equal value; the addressed model in the
  section on ownership distinguishes a node from its clone.
-/

namespace gcl

/-! ## Values and queues -/

/-- Items that flow through a pipeline; `term` is `PipelineTerm()`. -/
inductive Val where
  | term
  | num (n : Int)
deriving DecidableEq, Repr

/-- Ghost record of one completed queue operation. -/
inductive QEvent where
  | push (v : Val)
  | pop (v : Val)
  | close
deriving DecidableEq, Repr

/-- Modelled from the spec: the bounded queue (`buffer_queue.h`,
`queue_base.h` are not part of the sources).  A queue holds its items in FIFO
order, has a monotonic open-to-closed flag and a capacity; `log` is a ghost
history of the operations that completed on it. -/
structure QueueState where
  items : List Val
  closed : Bool
  cap : Nat
  log : List QEvent
deriving DecidableEq, Repr

/-- The shared state that filters act on: every queue, by address. -/
abbrev World := Nat → QueueState

/-- Ways in which a call does not return normally. -/
inductive Fault where
  /-- Raised by `throw;` with no active exception, and by a null dereference. -/
  | terminate
  /-- An exception thrown by a queue operation or a user callable. -/
  | exception
  /-- The calling thread is suspended on a queue, latch or barrier. -/
  | blocked
  /-- The bound on loop iterations of the model was reached. -/
  | fuel
deriving DecidableEq, Repr

/-- Result of an effectful call: a value and the new world, or a fault together
with the world at the point of the fault. -/
abbrev Eff (α : Type) := World → Except (Fault × World) (α × World)

/-- Normal return of a value, the world unchanged. -/
def Eff.ret {α : Type} (a : α) : Eff α :=
  fun w => .ok (a, w)

/-- Abnormal exit, the world unchanged. -/
def Eff.fail {α : Type} (e : Fault) : Eff α :=
  fun w => .error (e, w)

/-- Sequencing of two effectful calls: `k` runs on the value of `m` in the
world `m` leaves; a fault of `m` is the fault of the whole. -/
def Eff.andThen {α β : Type} (m : Eff α) (k : α → Eff β) : Eff β :=
  fun w =>
    match m w with
    | .ok (a, w1) => k a w1
    | .error e => .error e

/-- Modelled from the spec: `buffer_queue<T>(n)`, a new empty open queue of
capacity `n`. -/
def buffer_queue (n : Nat) : QueueState :=
  { items := [], closed := false, cap := n, log := [] }

/-- Modelled from the spec: `queue_back::wait_pop`.  Removes and returns the
front item (`some v`, status success); on a closed and empty queue returns
`none` (status closed) and changes nothing; on an open empty queue the caller
is suspended. -/
def wait_pop (q : Nat) : Eff (Option Val) :=
  fun w =>
    match (w q).items with
    | v :: rest =>
      .ok (some v, Function.update w q
        { w q with items := rest, log := (w q).log ++ [QEvent.pop v] })
    | [] => if (w q).closed then .ok (none, w) else .error (Fault.blocked, w)

/-- Modelled from the spec: `queue_front::push`.  Appends the item; throws on
a closed queue; the caller is suspended while the queue is full. -/
def push (q : Nat) (v : Val) : Eff Unit :=
  fun w =>
    if (w q).closed then .error (Fault.exception, w)
    else if (w q).cap ≤ (w q).items.length then .error (Fault.blocked, w)
    else .ok ((), Function.update w q
      { w q with items := (w q).items ++ [v], log := (w q).log ++ [QEvent.push v] })

/-- Modelled from the spec: `queue_common::close`.  Sets the closed flag. -/
def close (q : Nat) : Eff Unit :=
  fun w => .ok ((), Function.update w q
    { w q with closed := true, log := (w q).log ++ [QEvent.close] })

/-! ## Utilities (`pipeline.h` lines 58-76, 178) -/

/-- Embeds `ignore<T>`: returns `PipelineTerm()`. -/
def ignore (_t : Val) : Eff Val :=
  Eff.ret Val.term

/-- Embeds `do_consume<T>`: calls `f(t)` and returns `PipelineTerm()`. -/
def do_consume (f : Val → Eff Unit) (t : Val) : Eff Val :=
  (f t).andThen fun _ => Eff.ret Val.term

/-- Embeds `chain<IN, INTERMEDIATE, OUT>`: `out_fn(intermediate_fn(in))`. -/
def chain (intermediate_fn : Val → Eff Val) (out_fn : Val → Eff Val) (i : Val) : Eff Val :=
  (intermediate_fn i).andThen out_fn

/-- Embeds `Nothing`: the default close callback. -/
def Nothing : Eff Unit :=
  Eff.ret ()

/-! ## Filters (`pipeline.h` lines 79-236) -/

/-- The three concrete subclasses of `filter<IN, OUT>`. -/
inductive filter where
  | filter_function (f_ : Val → Eff Val) (close_ : Eff Unit)
  | filter_chain (first_ : filter) (second_ : filter)
  | filter_thread_point (qb_ : Nat)

namespace filter

/-- Embeds `Apply(in)`. -/
def Apply : filter → Val → Eff Val
  | filter_function f_ _, i => f_ i
  | filter_chain first_ second_, i => (first_.Apply i).andThen second_.Apply
  | filter_thread_point _, _ => Eff.fail Fault.terminate

/-- Embeds `Run(function<PipelineTerm (OUT)> r)`. -/
def RunWith : filter → (Val → Eff Val) → Eff Bool
  | filter_function _ _, _ => Eff.fail Fault.terminate
  | filter_chain first_ second_, r =>
    first_.RunWith (chain second_.Apply r)
  | filter_thread_point qb_, r =>
    (wait_pop qb_).andThen fun status =>
      match status with
      | none => Eff.ret false
      | some out => (r out).andThen fun _ => Eff.ret true

/-- Embeds `Run()`. -/
def Run : filter → Eff Bool
  | filter_function _ _ => Eff.fail Fault.terminate
  | filter_chain first_ second_ =>
    first_.RunWith (chain second_.Apply ignore)
  | filter_thread_point _ => Eff.fail Fault.terminate

/-- Embeds `Close()`. -/
def Close : filter → Eff Unit
  | filter_function _ close_ => close_
  | filter_chain first_ second_ => first_.Close.andThen fun _ => second_.Close
  | filter_thread_point _ => Eff.ret ()

/-- Embeds `clone()`. -/
def clone : filter → filter
  | filter_function f_ close_ => filter_function f_ close_
  | filter_chain first_ second_ => filter_chain first_.clone second_.clone
  | filter_thread_point qb_ => filter_thread_point qb_

end filter

/-! ## Segments (`pipeline.h` lines 238-286) -/

/-- A `pipeline_segment<OUT>*`: `NULL`, or a segment with its filter `f_` and
its `next_` pointer. -/
inductive pipeline_segment where
  | NULL
  | mk (f_ : filter) (next_ : pipeline_segment)

namespace pipeline_segment

/-- Embeds `clone()`, with `NULL` cloned to `NULL` as the callers do. -/
def clone : pipeline_segment → pipeline_segment
  | NULL => NULL
  | mk f_ next_ => mk f_.clone next_.clone

/-- The method `chain(p)`: `assert(!next_); next_ = p; return this;`. -/
def chain (ndebug : Bool) : pipeline_segment → pipeline_segment → Option pipeline_segment
  | NULL, _ => none
  | mk f_ NULL, p => some (mk f_ p)
  | mk f_ (mk _ _), p => if ndebug then some (mk f_ p) else none

/-- The filters of the segments reachable through `next_`, in list order. -/
def filters : pipeline_segment → List filter
  | NULL => []
  | mk f_ next_ => f_ :: next_.filters

/-- Whether the pointer is non-null. -/
def isSome : pipeline_segment → Bool
  | NULL => false
  | mk _ _ => true

end pipeline_segment

/-- The free function `chain(const pipeline_segment<MID>* p, const filter<MID, OUT>* f)`:
a new segment holding the chain of a clone of `p->f_` and a clone of `f`, with
no successor. -/
def chain_segment : pipeline_segment → Option filter → Option pipeline_segment
  | pipeline_segment.mk f_ _, some f =>
    some (pipeline_segment.mk (filter.filter_chain f_.clone f.clone) pipeline_segment.NULL)
  | _, _ => none

/-! ## Plans (`pipeline.h` lines 292-348) -/

/-- Embeds `FullPipelinePlan<IN, OUT>`. -/
structure FullPipelinePlan where
  leading_ : Option filter
  chain_ : pipeline_segment
  trailing_ : pipeline_segment

namespace FullPipelinePlan

/-- Embeds `leading_clone()`. -/
def leading_clone (p : FullPipelinePlan) : Option filter :=
  match p.leading_ with
  | some l => some l.clone
  | none => none

/-- Embeds `chain_clone()`. -/
def chain_clone (p : FullPipelinePlan) : pipeline_segment :=
  p.chain_.clone

/-- Embeds `trailing_clone()`. -/
def trailing_clone (p : FullPipelinePlan) : pipeline_segment :=
  p.trailing_.clone

/-- Embeds `clone()`. -/
def clone (p : FullPipelinePlan) : FullPipelinePlan :=
  { leading_ := p.leading_clone, chain_ := p.chain_clone, trailing_ := p.trailing_clone }

end FullPipelinePlan

/-- Embeds `SimplePipelinePlan<IN, OUT>`. -/
structure SimplePipelinePlan where
  f_ : filter

/-- Embeds `SimplePipelinePlan::Apply`. -/
def SimplePipelinePlan.Apply (p : SimplePipelinePlan) (i : Val) : Eff Val :=
  p.f_.Apply i

/-! ## Constructors (`pipeline.h` lines 354-410) -/

/-- Embeds `Source(b)`. -/
def Source (b : Nat) : FullPipelinePlan :=
  { leading_ := none
    chain_ := pipeline_segment.NULL
    trailing_ := pipeline_segment.mk (filter.filter_thread_point b) pipeline_segment.NULL }

/-- Embeds `Filter(f)`. -/
def Filter (f : Val → Eff Val) : SimplePipelinePlan :=
  { f_ := filter.filter_function f Nothing }

/-- Embeds `Consume(consumer)`. -/
def Consume (consumer : Val → Eff Unit) : SimplePipelinePlan :=
  { f_ := filter.filter_function (do_consume consumer) Nothing }

/-- Embeds `Consume(consumer, close)`. -/
def ConsumeClose (consumer : Val → Eff Unit) (close : Eff Unit) : SimplePipelinePlan :=
  { f_ := filter.filter_function (do_consume consumer) close }

/-- Embeds `Sink(front)`. -/
def Sink (front : Nat) : SimplePipelinePlan :=
  Consume (push front)

/-- Embeds `SinkAndClose(front)`. -/
def SinkAndClose (front : Nat) : SimplePipelinePlan :=
  ConsumeClose (push front) (close front)

/-! ## Pipes (`pipeline.h` lines 416-463) -/

/-- Embeds `operator|(SimplePipelinePlan, SimplePipelinePlan)`. -/
def pipe_simple_simple (p1 p2 : SimplePipelinePlan) : SimplePipelinePlan :=
  { f_ := filter.filter_chain p1.f_.clone p2.f_.clone }

/-- Embeds `operator|(FullPipelinePlan, SimplePipelinePlan)`. -/
def pipe_full_simple (p1 : FullPipelinePlan) (p2 : SimplePipelinePlan) :
    Option FullPipelinePlan :=
  match chain_segment p1.trailing_ (some p2.f_) with
  | none => none
  | some t => some { leading_ := p1.leading_clone, chain_ := p1.chain_clone, trailing_ := t }

/-- Embeds `operator|(SimplePipelinePlan, FullPipelinePlan)`. -/
def pipe_simple_full (p1 : SimplePipelinePlan) (p2 : FullPipelinePlan) : FullPipelinePlan :=
  { leading_ :=
      match p2.leading_ with
      | some l => some (filter.filter_chain p1.f_ l)
      | none => some p1.f_.clone
    chain_ := p2.chain_clone
    trailing_ := p2.trailing_clone }

/-- Embeds `operator|(FullPipelinePlan, FullPipelinePlan)`. -/
def pipe_full_full (ndebug : Bool) (p1 p2 : FullPipelinePlan) : Option FullPipelinePlan :=
  match chain_segment p1.trailing_ p2.leading_ with
  | none => none
  | some j =>
    match pipeline_segment.chain ndebug j p2.chain_clone with
    | none => none
    | some p =>
      if p1.chain_.isSome then
        match pipeline_segment.chain ndebug p1.chain_clone p with
        | none => none
        | some p' =>
          some { leading_ := p1.leading_clone, chain_ := p', trailing_ := p2.trailing_clone }
      else
        some { leading_ := p1.leading_clone, chain_ := p, trailing_ := p2.trailing_clone }

/-- Embeds `Parallel(p)`: `SinkAndClose(q) | Source(q) | p`, where `q` is the address
of the queue created by `new buffer_queue<IN>(10)`. -/
def Parallel (q : Nat) (p : SimplePipelinePlan) : Option FullPipelinePlan :=
  pipe_full_simple (pipe_simple_full (SinkAndClose q) (Source q)) p

/-- The state of the queue that `Parallel` allocates. -/
def Parallel.new_queue : QueueState := buffer_queue 10

/-! ## Execution (`pipeline.h` lines 96-124, 265-275, 469-514) -/

/-- Modelled from the spec: the countdown latch (`latch.h` is not part of the
sources), reduced to its count.  `count_down` decrements the count. -/
def latch.count_down (count : Nat) : Nat := count - 1

/-- Modelled from the spec: the barrier (`barrier.h` is not part of the
sources), reduced to the number of threads it was constructed with and the
number of threads that have arrived. -/
structure barrier where
  num_threads : Nat
  arrived : Nat
deriving DecidableEq, Repr

/-- Modelled from the spec: the thread pool (`simple_thread_pool.h` is not part
of the sources), reduced to the filters of the closures `RunFilter(pex, f)`
handed to its threads, in submission order.  The pool hands out a thread for
every request. -/
abbrev simple_thread_pool := List filter

/-- Modelled from the spec: `try_get_unused_thread()->execute(closure)` on the
pool, for the closure `RunFilter(pex, f)`. -/
def simple_thread_pool.submit (pool : simple_thread_pool) (f : filter) : simple_thread_pool :=
  pool ++ [f]

/-- Ghost record of the steps of the `PipelineExecution` constructor. -/
inductive ExecEvent where
  | execute (f : filter)
  | barrier_constructed (num_threads : Nat)
  | start_count_down

/-- Embeds `PipelineExecution`.  `num_threads_` is an `int` in the source; the
count stays far below its range (one per segment of the plan) and is a `Nat`
here.  `start_` and `end_` are the counts of the two latches; `thread_end_` is `none`
while the pointer is `NULL`; `trace` is a ghost history. -/
structure PipelineExecution where
  pp_ : FullPipelinePlan
  pool_ : simple_thread_pool
  start_ : Nat
  thread_end_ : Option barrier
  end_ : Nat
  num_threads_ : Nat
  done_ : Bool
  trace : List ExecEvent

namespace PipelineExecution

/-- Embeds `execute(f)`: `num_threads_++`, then the closure goes to a pool thread. -/
def execute (pex : PipelineExecution) (f : filter) : PipelineExecution :=
  { pex with
    num_threads_ := pex.num_threads_ + 1
    pool_ := pex.pool_.submit f
    trace := pex.trace ++ [ExecEvent.execute f] }

/-- Embeds `threads_done()`. -/
def threads_done (pex : PipelineExecution) : PipelineExecution :=
  { pex with done_ := true, end_ := latch.count_down pex.end_ }

end PipelineExecution

/-- Embeds `pipeline_segment<PipelineTerm>::Run(pex)`. -/
def pipeline_segment.Run : pipeline_segment → PipelineExecution → Option PipelineExecution
  | pipeline_segment.NULL, _ => none
  | pipeline_segment.mk f_ next_, pex =>
    match next_ with
    | pipeline_segment.NULL => some (pex.execute f_)
    | pipeline_segment.mk _ _ => next_.Run (pex.execute f_)

/-- Embeds `FullPipelinePlan<PipelineTerm, PipelineTerm>::run(pex)`. -/
def FullPipelinePlan.run (p : FullPipelinePlan) (pex : PipelineExecution) :
    Option PipelineExecution :=
  if p.chain_.isSome then
    match p.chain_.Run pex with
    | none => none
    | some pex1 => p.trailing_.Run pex1
  else
    p.trailing_.Run pex

namespace PipelineExecution

/-- The member initialisers of the constructor. -/
def init (pp : FullPipelinePlan) : PipelineExecution :=
  { pp_ := pp.clone, pool_ := [], start_ := 1, thread_end_ := none, end_ := 1,
    num_threads_ := 0, done_ := false, trace := [] }

/-- The second statement of the constructor: `thread_end_ = new barrier(num_threads_, ...)`. -/
def new_barrier (pex : PipelineExecution) : PipelineExecution :=
  { pex with
    thread_end_ := some { num_threads := pex.num_threads_, arrived := 0 }
    trace := pex.trace ++ [ExecEvent.barrier_constructed pex.num_threads_] }

/-- The last statement of the constructor: `start_.count_down()`. -/
def start_threads (pex : PipelineExecution) : PipelineExecution :=
  { pex with
    start_ := latch.count_down pex.start_
    trace := pex.trace ++ [ExecEvent.start_count_down] }

/-- Embeds `PipelineExecution::PipelineExecution(pp, pool)`. -/
def new (pp : FullPipelinePlan) : Option PipelineExecution :=
  match (init pp).pp_.run (init pp) with
  | none => none
  | some pex => some (start_threads (new_barrier pex))

/-- Modelled from the spec: `barrier::count_down_and_wait` on `thread_end_`,
up to the arrival of the caller: the arrival is counted and, when it is the
last one, the completion callback `threads_done` runs. -/
def arrive (pex : PipelineExecution) : Option PipelineExecution :=
  match pex.thread_end_ with
  | none => none
  | some b =>
    let pex1 := { pex with thread_end_ := some { b with arrived := b.arrived + 1 } }
    some (if b.arrived + 1 = b.num_threads then pex1.threads_done else pex1)

end PipelineExecution

/-- The loop `while (b) { b = f->Run(); }` of `RunFilter`, at most `fuel`
iterations; the value returned is the number of calls to `Run` (ghost). -/
def RunFilter.loop (f : filter) : Nat → Eff Nat
  | 0 => fun w => .error (Fault.fuel, w)
  | fuel + 1 => fun w =>
    match f.Run w with
    | .error e => .error e
    | .ok (false, w1) => .ok (1, w1)
    | .ok (true, w1) =>
      match RunFilter.loop f fuel w1 with
      | .error e => .error e
      | .ok (n, w2) => .ok (n + 1, w2)

/-- Embeds `RunFilter(pex, f)`: wait for the start latch, run until `Run` returns
false, `Close`, arrive at the thread-end barrier.  Returns the number of calls
to `Run` (ghost) and the execution after the arrival. -/
def RunFilter (fuel : Nat) (pex : PipelineExecution) (f : filter) :
    Eff (Nat × PipelineExecution) :=
  fun w =>
    if pex.start_ ≠ 0 then .error (Fault.blocked, w)
    else
      match RunFilter.loop f fuel w with
      | .error e => .error e
      | .ok (n, w1) =>
        match f.Close w1 with
        | .error e => .error e
        | .ok (_, w2) =>
          match pex.arrive with
          | none => .error (Fault.terminate, w2)
          | some pex1 => .ok ((n, pex1), w2)

/-! ## Compositions used by the theorems -/

/-- The composition `p | Parallel(s)` for a full plan `p`, the queue of `Parallel` being at
address `q`. -/
def pipe_parallel (ndebug : Bool) (p : FullPipelinePlan) (q : Nat) (s : SimplePipelinePlan) :
    Option FullPipelinePlan :=
  match Parallel q s with
  | none => none
  | some ps => pipe_full_full ndebug p ps

/-- The composition `p | Parallel(s1) | ... | Parallel(sn)`, composed left to right; each stage
comes with the address of the queue its `Parallel` allocates. -/
def pipe_parallels (ndebug : Bool) :
    Option FullPipelinePlan → List (Nat × SimplePipelinePlan) → Option FullPipelinePlan
  | none, _ => none
  | some p, [] => some p
  | some p, (q, s) :: rest => pipe_parallels ndebug (pipe_parallel ndebug p q s) rest

/-- The composition `Source(q_in) | Parallel(s1) | ... | Parallel(sn) | SinkAndClose(q_out)`,
composed left to right. -/
def canonical_plan (ndebug : Bool) (q_in : Nat) (stages : List (Nat × SimplePipelinePlan))
    (q_out : Nat) : Option FullPipelinePlan :=
  match pipe_parallels ndebug (some (Source q_in)) stages with
  | none => none
  | some p => pipe_full_simple p (SinkAndClose q_out)

/-- The number of workers registered when the plan is built and executed. -/
def registered_workers (plan : Option FullPipelinePlan) : Option Nat :=
  match plan with
  | none => none
  | some p =>
    match PipelineExecution.new p with
    | none => none
    | some pex => some pex.num_threads_

/-- The composition `Source(q) | t | SinkAndClose(out)`, composed left to right: a plan of one
segment. -/
def source_transform_sink (q : Nat) (t : SimplePipelinePlan) (out : Nat) :
    Option FullPipelinePlan :=
  match pipe_full_simple (Source q) t with
  | none => none
  | some p => pipe_full_simple p (SinkAndClose out)

/-- The composition `p | s1 | ... | sn` for simple plans, composed left to right. -/
def pipe_simples : Option FullPipelinePlan → List SimplePipelinePlan → Option FullPipelinePlan
  | none, _ => none
  | some p, [] => some p
  | some p, s :: rest => pipe_simples (pipe_full_simple p s) rest

/-- The composition `Source(q_in) | s1 | ... | sn | SinkAndClose(q_out)`, composed left to
right: the fully fused plan, of one segment. -/
def fused_plan (q_in : Nat) (stages : List SimplePipelinePlan) (q_out : Nat) :
    Option FullPipelinePlan :=
  match pipe_simples (some (Source q_in)) stages with
  | none => none
  | some p => pipe_full_simple p (SinkAndClose q_out)

/-- The workers of the listed filters run one after the other, each to its
arrival at the barrier: one schedule of the execution. -/
def run_in_turn (fuel : Nat) : PipelineExecution → List filter → Eff PipelineExecution
  | pex, [] => Eff.ret pex
  | pex, f :: rest => (RunFilter fuel pex f).andThen fun r => run_in_turn fuel r.2 rest

/-- Construct the execution of a plan and run its workers in the order of
their registration. -/
def execute_in_turn (fuel : Nat) (p : FullPipelinePlan) : Eff PipelineExecution :=
  match PipelineExecution.new p with
  | none => Eff.fail Fault.terminate
  | some pex => run_in_turn fuel pex pex.pool_

/-- What is seen of queue `q` once the plan is built and its workers have run
in turn from the world `w`: `none` when the plan is not built; otherwise the
fault that stopped the run, if any, and the items and the closed flag of `q`. -/
def observe (fuel : Nat) (plan : Option FullPipelinePlan) (w : World) (q : Nat) :
    Option (Option Fault × List Val × Bool) :=
  match plan with
  | none => none
  | some p =>
    match execute_in_turn fuel p w with
    | .ok (_, w1) => some (none, (w1 q).items, (w1 q).closed)
    | .error (e, w1) => some (some e, (w1 q).items, (w1 q).closed)

/-- The transform `x → 2 x` on numbers. -/
def times_two : Val → Val
  | Val.num n => Val.num (n * 2)
  | Val.term => Val.term

/-- The transform `x → x + 1` on numbers. -/
def plus_one : Val → Val
  | Val.num n => Val.num (n + 1)
  | Val.term => Val.term

/-- A closed queue of capacity 10 that holds `xs`. -/
def closed_queue (xs : List Val) : QueueState :=
  { items := xs, closed := true, cap := 10, log := [] }

/-- A world whose queue 0 holds `xs` and is closed, every other queue being
new. -/
def closed_input (xs : List Val) : World :=
  fun q => if q = 0 then closed_queue xs else buffer_queue 10

/-- A user transform without side effects. -/
def pure_fn (t : Val → Val) : Val → Eff Val :=
  fun v => Eff.ret (t v)

/-- The user transform `x → x`. -/
def same : SimplePipelinePlan := Filter (pure_fn id)

/-! ## Ownership: the addressed model

The value model above cannot tell a node from its clone.  For the claims about
sharing, the same classes are modelled once more with the address of every
heap object.  `new` takes the next free address `n` and returns `n + 1` as the
next free one; plans are returned by value and have no address of their own. -/

/-- A `filter` object on the heap, with its address. -/
inductive heap_filter where
  | filter_function (addr : Nat) (f_ : Val → Eff Val) (close_ : Eff Unit)
  | filter_chain (addr : Nat) (first_ : heap_filter) (second_ : heap_filter)
  | filter_thread_point (addr : Nat) (qb_ : Nat)

namespace heap_filter

/-- Embeds `clone()`: every node of the copy is allocated by `new`. -/
def clone : heap_filter → Nat → heap_filter × Nat
  | filter_function _ f_ close_, n => (filter_function n f_ close_, n + 1)
  | filter_chain _ first_ second_, n =>
    let r1 := first_.clone n
    let r2 := second_.clone r1.2
    (filter_chain r2.2 r1.1 r2.1, r2.2 + 1)
  | filter_thread_point _ qb_, n => (filter_thread_point n qb_, n + 1)

/-- The addresses of the filter objects reachable from the filter, itself
included: what `delete` on it frees. -/
def nodes : heap_filter → List Nat
  | filter_function addr _ _ => [addr]
  | filter_chain addr first_ second_ => addr :: (first_.nodes ++ second_.nodes)
  | filter_thread_point addr _ => [addr]

/-- The filter as a value, addresses forgotten. -/
def value : heap_filter → filter
  | filter_function _ f_ close_ => filter.filter_function f_ close_
  | filter_chain _ first_ second_ => filter.filter_chain first_.value second_.value
  | filter_thread_point _ qb_ => filter.filter_thread_point qb_

end heap_filter

/-- A `pipeline_segment*` with addresses: `NULL` or a segment object. -/
inductive heap_segment where
  | NULL
  | mk (addr : Nat) (f_ : heap_filter) (next_ : heap_segment)

namespace heap_segment

/-- Embeds `clone()`, with `NULL` cloned to `NULL`. -/
def clone : heap_segment → Nat → heap_segment × Nat
  | NULL, n => (NULL, n)
  | mk _ f_ next_, n =>
    let r1 := f_.clone n
    let r2 := next_.clone r1.2
    (mk r2.2 r1.1 r2.1, r2.2 + 1)

/-- The method `chain(p)`. -/
def chain (ndebug : Bool) : heap_segment → heap_segment → Option heap_segment
  | NULL, _ => none
  | mk addr f_ NULL, p => some (mk addr f_ p)
  | mk addr f_ (mk _ _ _), p => if ndebug then some (mk addr f_ p) else none

/-- The addresses of the segment and filter objects reachable from the
segment: what `delete` on it frees. -/
def nodes : heap_segment → List Nat
  | NULL => []
  | mk addr f_ next_ => addr :: (f_.nodes ++ next_.nodes)

/-- The segment list as a value. -/
def value : heap_segment → pipeline_segment
  | NULL => pipeline_segment.NULL
  | mk _ f_ next_ => pipeline_segment.mk f_.value next_.value

/-- Whether the pointer is non-null. -/
def isSome : heap_segment → Bool
  | NULL => false
  | mk _ _ _ => true

end heap_segment

/-- The free function `chain(p, f)` with addresses: clones of `p->f_` and of `f`,
a new `filter_chain`, a new segment. -/
def heap_chain_segment : heap_segment → Option heap_filter → Nat → Option (heap_segment × Nat)
  | heap_segment.mk _ f_ _, some f, n =>
    let r1 := f_.clone n
    let r2 := f.clone r1.2
    some (heap_segment.mk (r2.2 + 1) (heap_filter.filter_chain r2.2 r1.1 r2.1) heap_segment.NULL,
      r2.2 + 2)
  | _, _, _ => none

/-- Embeds `FullPipelinePlan` with addresses. -/
structure heap_full_plan where
  leading_ : Option heap_filter
  chain_ : heap_segment
  trailing_ : heap_segment

/-- Embeds `SimplePipelinePlan` with addresses. -/
structure heap_simple_plan where
  f_ : heap_filter

namespace heap_full_plan

/-- Embeds `leading_clone()`. -/
def leading_clone (p : heap_full_plan) (n : Nat) : Option heap_filter × Nat :=
  match p.leading_ with
  | some l => (some (l.clone n).1, (l.clone n).2)
  | none => (none, n)

/-- What the plan owns and its destructor frees: `delete leading_; delete
chain_; delete trailing_;`. -/
def nodes (p : heap_full_plan) : List Nat :=
  (match p.leading_ with
   | some l => l.nodes
   | none => []) ++ p.chain_.nodes ++ p.trailing_.nodes

/-- The plan as a value. -/
def value (p : heap_full_plan) : FullPipelinePlan :=
  { leading_ := p.leading_.map heap_filter.value
    chain_ := p.chain_.value
    trailing_ := p.trailing_.value }

end heap_full_plan

/-- The plan as a value. -/
def heap_simple_plan.value (p : heap_simple_plan) : SimplePipelinePlan :=
  { f_ := p.f_.value }

/-- Embeds `operator|(SimplePipelinePlan, SimplePipelinePlan)` with addresses. -/
def heap_pipe_simple_simple (p1 p2 : heap_simple_plan) (n : Nat) : heap_simple_plan × Nat :=
  let r1 := p1.f_.clone n
  let r2 := p2.f_.clone r1.2
  ({ f_ := heap_filter.filter_chain r2.2 r1.1 r2.1 }, r2.2 + 1)

/-- Embeds `operator|(FullPipelinePlan, SimplePipelinePlan)` with addresses. -/
def heap_pipe_full_simple (p1 : heap_full_plan) (p2 : heap_simple_plan) (n : Nat) :
    Option (heap_full_plan × Nat) :=
  let r1 := p1.leading_clone n
  let r2 := p1.chain_.clone r1.2
  match heap_chain_segment p1.trailing_ (some p2.f_) r2.2 with
  | none => none
  | some r3 => some ({ leading_ := r1.1, chain_ := r2.1, trailing_ := r3.1 }, r3.2)

/-- Embeds `operator|(SimplePipelinePlan, FullPipelinePlan)` with addresses.  With a
leading filter the new `filter_chain` is built on `p1.f_` and `p2.leading_`
themselves; without one `p1.f_` is cloned. -/
def heap_pipe_simple_full (p1 : heap_simple_plan) (p2 : heap_full_plan) (n : Nat) :
    heap_full_plan × Nat :=
  let r1 : heap_filter × Nat :=
    match p2.leading_ with
    | some l => (heap_filter.filter_chain n p1.f_ l, n + 1)
    | none => p1.f_.clone n
  let r2 := p2.chain_.clone r1.2
  let r3 := p2.trailing_.clone r2.2
  ({ leading_ := some r1.1, chain_ := r2.1, trailing_ := r3.1 }, r3.2)

/-- Embeds `operator|(FullPipelinePlan, FullPipelinePlan)` with addresses. -/
def heap_pipe_full_full (ndebug : Bool) (p1 p2 : heap_full_plan) (n : Nat) :
    Option (heap_full_plan × Nat) :=
  match heap_chain_segment p1.trailing_ p2.leading_ n with
  | none => none
  | some r1 =>
    let r2 := p2.chain_.clone r1.2
    match heap_segment.chain ndebug r1.1 r2.1 with
    | none => none
    | some p =>
      if p1.chain_.isSome then
        let r3 := p1.chain_.clone r2.2
        match heap_segment.chain ndebug r3.1 p with
        | none => none
        | some p' =>
          let r4 := p1.leading_clone r3.2
          let r5 := p2.trailing_.clone r4.2
          some ({ leading_ := r4.1, chain_ := p', trailing_ := r5.1 }, r5.2)
      else
        let r4 := p1.leading_clone r2.2
        let r5 := p2.trailing_.clone r4.2
        some ({ leading_ := r4.1, chain_ := p, trailing_ := r5.1 }, r5.2)

/-- Embeds `Filter(f)` with addresses. -/
def heap_Filter (f : Val → Eff Val) (n : Nat) : heap_simple_plan × Nat :=
  ({ f_ := heap_filter.filter_function n f Nothing }, n + 1)

/-- Embeds `SinkAndClose(front)` with addresses. -/
def heap_SinkAndClose (front : Nat) (n : Nat) : heap_simple_plan × Nat :=
  ({ f_ := heap_filter.filter_function n (do_consume (push front)) (close front) }, n + 1)

/-- Embeds `Source(b)` with addresses. -/
def heap_Source (b : Nat) (n : Nat) : heap_full_plan × Nat :=
  ({ leading_ := none
     chain_ := heap_segment.NULL
     trailing_ := heap_segment.mk (n + 1) (heap_filter.filter_thread_point n b) heap_segment.NULL },
   n + 2)

/-! ## Leaves of a filter tree -/

/-- The close callbacks of the function-filter leaves of a filter, from left to
right; a source leaf has none. -/
def filter.close_callbacks : filter → List (Eff Unit)
  | filter.filter_function _ close_ => [close_]
  | filter.filter_chain first_ second_ => first_.close_callbacks ++ second_.close_callbacks
  | filter.filter_thread_point _ => []

/-- The callbacks of the list invoked one after the other, each once; a fault
of one ends the sequence. -/
def run_all : List (Eff Unit) → Eff Unit
  | [] => Eff.ret ()
  | c :: rest => c.andThen fun _ => run_all rest

/-- The user functions of the function-filter leaves of a filter, from left to
right. -/
def filter.functions : filter → List (Val → Eff Val)
  | filter.filter_function f_ _ => [f_]
  | filter.filter_chain first_ second_ => first_.functions ++ second_.functions
  | filter.filter_thread_point _ => []

/-- The functions of the list applied one after the other to a value. -/
def apply_all : List (Val → Eff Val) → Val → Eff Val
  | [], v => Eff.ret v
  | f :: rest, v => (f v).andThen (apply_all rest)

/-- Whether every leaf of the filter is a function filter. -/
def filter.functions_only : filter → Bool
  | filter.filter_function _ _ => true
  | filter.filter_chain first_ second_ => first_.functions_only && second_.functions_only
  | filter.filter_thread_point _ => false

/-- The queue of the thread-point source that is the leftmost leaf of the
filter, when every other leaf is a function filter; `none` for any other
shape. -/
def filter.source_led : filter → Option Nat
  | filter.filter_function _ _ => none
  | filter.filter_chain first_ second_ =>
    if second_.functions_only then first_.source_led else none
  | filter.filter_thread_point qb_ => some qb_

/-! ## Plans built from the public constructors and `operator|` -/

/-- The simple plans built from `Filter`, `Consume` (of which `Sink` and
`SinkAndClose` are instances) and `operator|`. -/
inductive SimpleBuilt : SimplePipelinePlan → Prop where
  | Filter (f : Val → Eff Val) : SimpleBuilt (Filter f)
  | Consume (consumer : Val → Eff Unit) : SimpleBuilt (Consume consumer)
  | ConsumeClose (consumer : Val → Eff Unit) (close : Eff Unit) :
    SimpleBuilt (ConsumeClose consumer close)
  | pipe (p1 p2 : SimplePipelinePlan) :
    SimpleBuilt p1 → SimpleBuilt p2 → SimpleBuilt (pipe_simple_simple p1 p2)

/-- The full plans built from `Source`, `Parallel` and `operator|`, in either
build mode; an application of `operator|` that aborts builds nothing. -/
inductive FullBuilt (ndebug : Bool) : FullPipelinePlan → Prop where
  | Source (b : Nat) : FullBuilt ndebug (Source b)
  | Parallel (q : Nat) (p : SimplePipelinePlan) (r : FullPipelinePlan) :
    SimpleBuilt p → Parallel q p = some r → FullBuilt ndebug r
  | full_simple (p1 : FullPipelinePlan) (p2 : SimplePipelinePlan) (r : FullPipelinePlan) :
    FullBuilt ndebug p1 → SimpleBuilt p2 → pipe_full_simple p1 p2 = some r → FullBuilt ndebug r
  | simple_full (p1 : SimplePipelinePlan) (p2 : FullPipelinePlan) :
    SimpleBuilt p1 → FullBuilt ndebug p2 → FullBuilt ndebug (pipe_simple_full p1 p2)
  | full_full (p1 p2 r : FullPipelinePlan) :
    FullBuilt ndebug p1 → FullBuilt ndebug p2 → pipe_full_full ndebug p1 p2 = some r →
    FullBuilt ndebug r

/-! ## A failing user transform -/

/-- A user transform that throws on every input. -/
def throwing : Val → Eff Val :=
  fun _ => Eff.fail Fault.exception

/-! ## The countdown latch with its waiters -/

/-- Modelled from the spec: the countdown latch (`countdown_latch.h` is not part
of the sources; only its test is).  A latch initialised with count `c`;
`count_down()`; `wait()` blocks until the count reaches zero; the count-down is
monotonic.  `waiting` lists the threads that have called `wait()` and have not
returned from it, `returned` the threads that have returned from `wait()`, in
the order of their return. -/
structure countdown_latch where
  count : Nat
  waiting : List Nat
  returned : List Nat
deriving DecidableEq, Repr

/-- One atomic step on a latch: a call of `count_down()`, the entry of thread
`t` into `wait()`, or the return of thread `t` from `wait()`. -/
inductive latch_step where
  | count_down
  | wait_call (t : Nat)
  | wait_return (t : Nat)
deriving DecidableEq, Repr

namespace countdown_latch

/-- Modelled from the spec: `countdown_latch latch(c)`. -/
def init (c : Nat) : countdown_latch :=
  { count := c, waiting := [], returned := [] }

/-- Modelled from the spec: `get_count()`. -/
def get_count (l : countdown_latch) : Nat := l.count

/-- Modelled from the spec: the effect of one step, `none` when the step cannot
happen.  `count_down()` decrements the count; `wait()` can be entered at any
time; a thread returns from `wait()` only from inside it and only while the
count is zero. -/
def step (l : countdown_latch) : latch_step → Option countdown_latch
  | latch_step.count_down => some { l with count := latch.count_down l.count }
  | latch_step.wait_call t => some { l with waiting := l.waiting ++ [t] }
  | latch_step.wait_return t =>
    if l.count = 0 ∧ t ∈ l.waiting then
      some { l with waiting := l.waiting.erase t, returned := l.returned ++ [t] }
    else none

/-- The steps of a schedule, one after the other. -/
def run : countdown_latch → List latch_step → Option countdown_latch
  | l, [] => some l
  | l, s :: rest =>
    match l.step s with
    | none => none
    | some l1 => run l1 rest

end countdown_latch

end gcl

/-! # Theorems -/

namespace gcl

/-! ## Cloning in the value model -/

theorem filter_clone_eq (f : filter) : f.clone = f := by
  induction f with
  | filter_function f c => rfl
  | filter_chain a b iha ihb => simp [filter.clone, iha, ihb]
  | filter_thread_point q => rfl

theorem segment_clone_eq (s : pipeline_segment) : s.clone = s := by
  induction s with
  | NULL => rfl
  | mk f n ih => simp [pipeline_segment.clone, ih, filter_clone_eq]

theorem plan_clone_eq (p : FullPipelinePlan) : p.clone = p := by
  cases p with
  | mk l c t =>
    cases l <;>
      simp [FullPipelinePlan.clone, FullPipelinePlan.leading_clone, FullPipelinePlan.chain_clone,
        FullPipelinePlan.trailing_clone, segment_clone_eq, filter_clone_eq]

theorem plan_leading_clone_eq (p : FullPipelinePlan) : p.leading_clone = p.leading_ := by
  cases p with
  | mk l c t => cases l <;> simp [FullPipelinePlan.leading_clone, filter_clone_eq]

/-! ## `operator|` on two full plans -/

/-- What `operator|(Full, Full)` computes, by the length of `p1.chain_`: with no
or one chain segment the join segment is linked in; with two or more the
`assert(!next_)` of `pipeline_segment::chain` fails, and under `NDEBUG` the
head's `next_` is overwritten. -/
theorem pipe_full_full_eq (ndebug : Bool) (p1 p2 : FullPipelinePlan) (tf l2 : filter)
    (tn : pipeline_segment) (h1 : p1.trailing_ = pipeline_segment.mk tf tn)
    (h2 : p2.leading_ = some l2) :
    pipe_full_full ndebug p1 p2 =
      match p1.chain_ with
      | pipeline_segment.NULL =>
        some { leading_ := p1.leading_
               chain_ := pipeline_segment.mk (filter.filter_chain tf l2) p2.chain_
               trailing_ := p2.trailing_ }
      | pipeline_segment.mk f pipeline_segment.NULL =>
        some { leading_ := p1.leading_
               chain_ := pipeline_segment.mk f
                 (pipeline_segment.mk (filter.filter_chain tf l2) p2.chain_)
               trailing_ := p2.trailing_ }
      | pipeline_segment.mk f (pipeline_segment.mk _ _) =>
        if ndebug then
          some { leading_ := p1.leading_
                 chain_ := pipeline_segment.mk f
                   (pipeline_segment.mk (filter.filter_chain tf l2) p2.chain_)
                 trailing_ := p2.trailing_ }
        else none := by
  obtain ⟨l1, c1, t1⟩ := p1
  obtain ⟨l2', c2, t2⟩ := p2
  simp only at h1 h2
  subst h1 h2
  rcases c1 with _ | ⟨f, _ | ⟨g, n⟩⟩ <;>
    cases ndebug <;>
    simp [pipe_full_full, chain_segment, pipeline_segment.chain, pipeline_segment.isSome,
      FullPipelinePlan.chain_clone, FullPipelinePlan.trailing_clone,
      plan_leading_clone_eq, segment_clone_eq, filter_clone_eq,
      pipeline_segment.clone]

/-- C1, at an input where the claim fails.  For `p1 = Source(0) | Parallel(same)
| Parallel(same)`, whose chain has two segments, and `p2 = Parallel(same)`, which
has a leading filter, `p1 | p2` aborts on `assert(!next_)`; compiled with
`NDEBUG` it returns a plan whose chain has two segments, the first of `p1` and
the join segment, where the claim promises three: the second segment of
`p1.chain_` is lost. -/
theorem pipe_full_full_two_segment_chain :
    ∃ p1 p2 : FullPipelinePlan,
      pipe_parallels false (some (Source 0)) [(1, same), (2, same)] = some p1 ∧
      pipe_parallels true (some (Source 0)) [(1, same), (2, same)] = some p1 ∧
      Parallel 3 same = some p2 ∧
      p2.leading_.isSome = true ∧
      p1.chain_.filters.length = 2 ∧
      p1.chain_.filters.length + 1 + p2.chain_.filters.length = 3 ∧
      pipe_full_full false p1 p2 = none ∧
      ∃ r, pipe_full_full true p1 p2 = some r ∧
        r.chain_.filters.length = 2 ∧
        r.chain_.filters.head? = p1.chain_.filters.head? ∧
        r.chain_.filters.getLast? =
          (match p1.trailing_, p2.leading_ with
           | pipeline_segment.mk tf _, some l => some (filter.filter_chain tf l)
           | _, _ => none) :=
  ⟨_, _, rfl, rfl, rfl, rfl, rfl, rfl, rfl, _, rfl, rfl, rfl, rfl⟩

end gcl

namespace gcl

/-! ## Registration of workers -/

/-- C2, at an input where the claim fails.  The canonical plan with `n = 3`
stages is not built: composing the third `Parallel` aborts on `assert(!next_)`,
so no worker is registered; compiled with `NDEBUG` the plan is built without its
second chain segment and executing it registers 3 workers, not `n + 1 = 4`.
With two stages `n + 1 = 3` workers are registered. -/
theorem canonical_plan_three_stages :
    canonical_plan false 0 [(1, same), (2, same), (3, same)] 4 = none ∧
    registered_workers (canonical_plan false 0 [(1, same), (2, same), (3, same)] 4) = none ∧
    registered_workers (canonical_plan true 0 [(1, same), (2, same), (3, same)] 4) = some 3 ∧
    registered_workers (canonical_plan false 0 [(1, same), (2, same)] 4) = some 3 :=
  ⟨rfl, rfl, rfl, rfl⟩

/-- Up to two `Parallel` stages the canonical plan is built in either build
mode and executing it registers one worker per stage plus one. -/
theorem registered_workers_le_two (ndebug : Bool) (q_in q_out : Nat)
    (stages : List (Nat × SimplePipelinePlan)) (h : stages.length ≤ 2) :
    registered_workers (canonical_plan ndebug q_in stages q_out) = some (stages.length + 1) := by
  rcases stages with _ | ⟨⟨q1, s1⟩, _ | ⟨⟨q2, s2⟩, _ | ⟨s3, rest⟩⟩⟩
  · rfl
  · rfl
  · rfl
  · simp at h

/-- With three or more `Parallel` stages the canonical plan is not built when
assertions are enabled. -/
theorem canonical_plan_aborts (q_in q_out : Nat) (stages : List (Nat × SimplePipelinePlan))
    (h : 3 ≤ stages.length) : canonical_plan false q_in stages q_out = none := by
  rcases stages with _ | ⟨⟨q1, s1⟩, _ | ⟨⟨q2, s2⟩, _ | ⟨⟨q3, s3⟩, rest⟩⟩⟩
  · simp at h
  · simp at h
  · simp at h
  · cases rest <;> rfl

/-- Fusing transforms inside one `Parallel` adds no worker. -/
theorem registered_workers_fused (ndebug : Bool) (q_in q q_out : Nat) (a b : SimplePipelinePlan) :
    registered_workers (canonical_plan ndebug q_in [(q, pipe_simple_simple a b)] q_out) =
      registered_workers (canonical_plan ndebug q_in [(q, a)] q_out) := rfl

theorem PipelineExecution.foldl_execute (fs : List filter) (pex : PipelineExecution) :
    fs.foldl PipelineExecution.execute pex =
      { pex with
        num_threads_ := pex.num_threads_ + fs.length
        pool_ := pex.pool_ ++ fs
        trace := pex.trace ++ fs.map ExecEvent.execute } := by
  induction fs generalizing pex with
  | nil => cases pex; simp
  | cons f fs ih =>
    simp [ih, PipelineExecution.execute, simple_thread_pool.submit, Nat.add_assoc,
      Nat.add_comm 1]

theorem pipeline_segment.Run_mk (f : filter) (n : pipeline_segment) (pex : PipelineExecution) :
    (pipeline_segment.mk f n).Run pex =
      some ((pipeline_segment.mk f n).filters.foldl PipelineExecution.execute pex) := by
  induction n generalizing f pex with
  | NULL => rfl
  | mk g m ih =>
    rw [pipeline_segment.Run, ih]
    rfl

theorem FullPipelinePlan.run_eq (p : FullPipelinePlan) (tf : filter) (tn : pipeline_segment)
    (pex : PipelineExecution) (h : p.trailing_ = pipeline_segment.mk tf tn) :
    p.run pex =
      some ((p.chain_.filters ++ p.trailing_.filters).foldl PipelineExecution.execute pex) := by
  obtain ⟨l, c, t⟩ := p
  simp only at h
  subst h
  cases c with
  | NULL => simp [FullPipelinePlan.run, pipeline_segment.isSome, pipeline_segment.Run_mk,
      pipeline_segment.filters]
  | mk f n =>
    simp [FullPipelinePlan.run, pipeline_segment.isSome, pipeline_segment.Run_mk,
      List.foldl_append]

/-- C3.  For a plan whose trailing segment is present and has no successor and
whose chain has `k` segments, the constructor of `PipelineExecution` succeeds;
it calls `execute` on the filters of the chain segments in list order and then
on the filter of the trailing segment, `k + 1` calls in all and nothing else
before the barrier; then it constructs the barrier with `num_threads_ = k + 1`;
only then it counts down the start latch, from 1 to 0. -/
theorem PipelineExecution.new_registers (p : FullPipelinePlan) (tf : filter)
    (h : p.trailing_ = pipeline_segment.mk tf pipeline_segment.NULL) :
    ∃ pex, PipelineExecution.new p = some pex ∧
      pex.trace =
        (p.chain_.filters ++ [tf]).map ExecEvent.execute ++
          [ExecEvent.barrier_constructed (p.chain_.filters.length + 1),
           ExecEvent.start_count_down] ∧
      pex.pool_ = p.chain_.filters ++ [tf] ∧
      pex.num_threads_ = p.chain_.filters.length + 1 ∧
      pex.thread_end_ = some { num_threads := p.chain_.filters.length + 1, arrived := 0 } ∧
      (PipelineExecution.init p).start_ = 1 ∧ pex.start_ = 0 ∧
      pex.end_ = 1 ∧ pex.done_ = false := by
  have hrun := FullPipelinePlan.run_eq p tf pipeline_segment.NULL (PipelineExecution.init p) h
  have hpp : (PipelineExecution.init p).pp_ = p := plan_clone_eq p
  have hnew : PipelineExecution.new p =
      some (PipelineExecution.start_threads (PipelineExecution.new_barrier
        ((p.chain_.filters ++ p.trailing_.filters).foldl PipelineExecution.execute
          (PipelineExecution.init p)))) := by
    unfold PipelineExecution.new
    rw [hpp, hrun]
  refine ⟨_, hnew, ?_⟩
  simp [PipelineExecution.foldl_execute, PipelineExecution.start_threads,
      PipelineExecution.new_barrier, PipelineExecution.init, h, pipeline_segment.filters,
      latch.count_down, PipelineExecution.execute, simple_thread_pool.submit]

/-- C3 on `Source(0) | Parallel(same) | SinkAndClose(2)`, whose chain has one segment. -/
theorem PipelineExecution.new_registers_witness :
    ∃ pex, PipelineExecution.new
        { leading_ := none
          chain_ := pipeline_segment.mk
            (filter.filter_chain (filter.filter_thread_point 0) (SinkAndClose 1).f_)
            pipeline_segment.NULL
          trailing_ := pipeline_segment.mk
            (filter.filter_chain (filter.filter_chain (filter.filter_thread_point 1) same.f_)
              (SinkAndClose 2).f_)
            pipeline_segment.NULL } = some pex ∧
      pex.num_threads_ = 2 ∧ pex.start_ = 0 := by
  obtain ⟨pex, h1, _, _, h4, _, _, h7, _⟩ := PipelineExecution.new_registers
    { leading_ := none
      chain_ := pipeline_segment.mk
        (filter.filter_chain (filter.filter_thread_point 0) (SinkAndClose 1).f_)
        pipeline_segment.NULL
      trailing_ := pipeline_segment.mk
        (filter.filter_chain (filter.filter_chain (filter.filter_thread_point 1) same.f_)
          (SinkAndClose 2).f_)
        pipeline_segment.NULL }
    (filter.filter_chain (filter.filter_chain (filter.filter_thread_point 1) same.f_)
      (SinkAndClose 2).f_) rfl
  exact ⟨pex, h1, h4, h7⟩

end gcl

namespace gcl

/-! ## Filters: `Apply` and `Run` -/

/-- C7.  `(p1 | p2).Apply(x)` is `p2.Apply(p1.Apply(x))`: `p1.Apply(x)` runs
first, and `p2.Apply` runs on its result in the world it leaves; a fault of
`p1.Apply(x)` is the fault of the whole.  The same holds of the `Apply` of any
chain filter. -/
theorem pipe_simple_simple_Apply (p1 p2 : SimplePipelinePlan) (x : Val) :
    (pipe_simple_simple p1 p2).Apply x = (p1.Apply x).andThen p2.Apply ∧
    ∀ F1 F2 : filter,
      (filter.filter_chain F1 F2).Apply x = (F1.Apply x).andThen F2.Apply := by
  constructor
  · simp only [pipe_simple_simple, SimplePipelinePlan.Apply, filter.Apply, filter_clone_eq]
    rfl
  · intro F1 F2
    rfl

/-- On transforms without side effects, `(p1 | p2).Apply(x)` returns `g (f x)`. -/
theorem pure_transforms_Apply (f g : Val → Val) (x : Val) (w : World) :
    (pipe_simple_simple (Filter (pure_fn f)) (Filter (pure_fn g))).Apply x w = .ok (g (f x), w) :=
  rfl

/-- C8.  For a chain filter `(F1, F2)` and a continuation `push`, `Run(push)` is
`F1.Run(λ m. push(F2.Apply(m)))`: the same boolean, the same final world and
the same faults.  In particular, when `F1` is a source whose queue has the front
item `v`, that item is popped, `F2.Apply` runs once on it, `push` runs once on
the result and the call returns true; when the queue is closed and empty the
call returns false and neither `F2.Apply` nor `push` runs. -/
theorem filter_chain_RunWith (F1 F2 : filter) (push : Val → Eff Val) :
    (filter.filter_chain F1 F2).RunWith push =
      F1.RunWith (fun m => (F2.Apply m).andThen push) ∧
    (∀ (q : Nat) (w : World) (v : Val) (rest : List Val), (w q).items = v :: rest →
      (filter.filter_chain (filter.filter_thread_point q) F2).RunWith push w =
        (((F2.Apply v).andThen push).andThen fun _ => Eff.ret true) (Function.update w q
          { w q with items := rest, log := (w q).log ++ [QEvent.pop v] })) ∧
    (∀ (q : Nat) (w : World), (w q).items = [] → (w q).closed = true →
      (filter.filter_chain (filter.filter_thread_point q) F2).RunWith push w =
        .ok (false, w)) := by
  refine ⟨rfl, ?_, ?_⟩
  · intro q w v rest h
    simp [filter.RunWith, wait_pop, h, chain, Eff.andThen]
  · intro q w h hc
    simp [filter.RunWith, wait_pop, h, hc, Eff.andThen, Eff.ret]

/-- C8 on the chain of `Source(0)` and the transform `x → x`, pushing to queue
1: with queue 0 holding `[1, 2]` the item `1` moves to queue 1; with queue 0
closed and empty the call returns false. -/
theorem filter_chain_RunWith_witness :
    (∃ w2, (filter.filter_chain (filter.filter_thread_point 0) same.f_).RunWith
        (do_consume (push 1)) (closed_input [Val.num 1, Val.num 2]) = .ok (true, w2) ∧
      (w2 0).items = [Val.num 2] ∧ (w2 1).items = [Val.num 1]) ∧
    (filter.filter_chain (filter.filter_thread_point 0) same.f_).RunWith
        (do_consume (push 1)) (closed_input []) = .ok (false, closed_input []) :=
  ⟨⟨_, (filter_chain_RunWith (filter.filter_thread_point 0) same.f_ (do_consume (push 1))).2.1
      0 (closed_input [Val.num 1, Val.num 2]) (Val.num 1) [Val.num 2] rfl, rfl, rfl⟩,
    (filter_chain_RunWith (filter.filter_thread_point 0) same.f_ (do_consume (push 1))).2.2
      0 (closed_input []) rfl rfl⟩

/-- C9, the part that fails.  The filter of `Source(0)` is a bare thread point;
in a world whose queue 0 holds one `PipelineTerm`, `Run()` on it is `throw;`,
which terminates the program with the queue untouched, while `Run(push)` with a
`push` that ignores its argument pops the item and returns true. -/
theorem bare_source_Run_differs :
    (Source 0).trailing_ =
      pipeline_segment.mk (filter.filter_thread_point 0) pipeline_segment.NULL ∧
    (filter.filter_thread_point 0).Run (closed_input [Val.term]) =
      .error (Fault.terminate, closed_input [Val.term]) ∧
    (∃ w1, (filter.filter_thread_point 0).RunWith ignore (closed_input [Val.term]) =
      .ok (true, w1) ∧ (w1 0).items = []) ∧
    (filter.filter_thread_point 0).Run (closed_input [Val.term]) ≠
      (filter.filter_thread_point 0).RunWith ignore (closed_input [Val.term]) := by
  refine ⟨rfl, rfl, ⟨_, rfl, rfl⟩, ?_⟩
  intro h
  cases h

/-- C9, amended.  On every chain filter, `Run()` is `Run(push)` with the `push`
that ignores its argument: same item pulled, same boolean, same faults.  On a
bare thread-point source `Run()` pulls nothing and terminates the program. -/
theorem chain_Run_is_RunWith_ignore (F1 F2 : filter) (q : Nat) (w : World) :
    (filter.filter_chain F1 F2).Run = (filter.filter_chain F1 F2).RunWith ignore ∧
    (filter.filter_thread_point q).Run w = .error (Fault.terminate, w) :=
  ⟨rfl, rfl⟩

/-- C10.  `Run(push)` on the source filter over queue `q`.  When the front of
`q` is `v`, the front item and nothing else is removed from `q`, `push(v)` runs
once in the resulting world, and the call returns true in the world `push`
leaves (a fault of `push` is the fault of the call).  When `q` is closed and
empty the call returns false in the unchanged world, whatever `push` is. -/
theorem filter_thread_point_RunWith (q : Nat) (push : Val → Eff Val) (w : World) :
    (∀ v rest, (w q).items = v :: rest →
      (filter.filter_thread_point q).RunWith push w =
        ((push v).andThen fun _ => Eff.ret true) (Function.update w q
            { w q with items := rest, log := (w q).log ++ [QEvent.pop v] })) ∧
    ((w q).items = [] → (w q).closed = true →
      (filter.filter_thread_point q).RunWith push w = .ok (false, w)) := by
  constructor
  · intro v rest h
    simp [filter.RunWith, wait_pop, h, Eff.andThen]
  · intro h hc
    simp [filter.RunWith, wait_pop, h, hc, Eff.andThen, Eff.ret]

/-- C10 on queue 0 holding `[1, 2]`, and on queue 0 closed and empty, with the
continuation that pushes to queue 1. -/
theorem filter_thread_point_RunWith_witness :
    (∃ w2, (filter.filter_thread_point 0).RunWith (do_consume (push 1))
        (closed_input [Val.num 1, Val.num 2]) = .ok (true, w2) ∧
      (w2 0).items = [Val.num 2] ∧ (w2 1).items = [Val.num 1]) ∧
    (filter.filter_thread_point 0).RunWith (do_consume (push 1)) (closed_input []) =
      .ok (false, closed_input []) := by
  constructor
  · exact ⟨_, (filter_thread_point_RunWith 0 (do_consume (push 1))
      (closed_input [Val.num 1, Val.num 2])).1 (Val.num 1) [Val.num 2] rfl, rfl, rfl⟩
  · exact (filter_thread_point_RunWith 0 (do_consume (push 1)) (closed_input [])).2 rfl rfl

end gcl

namespace gcl

/-! ## One worker on one segment -/

/-- The filter of the only segment of `Source(q) | Filter(t) | SinkAndClose(out)`. -/
theorem source_transform_sink_eq (q out : Nat) (t : Val → Eff Val) :
    source_transform_sink q (Filter t) out =
      some { leading_ := none
             chain_ := pipeline_segment.NULL
             trailing_ := pipeline_segment.mk
               (filter.filter_chain
                 (filter.filter_chain (filter.filter_thread_point q)
                   (filter.filter_function t Nothing))
                 (filter.filter_function (do_consume (push out)) (close out)))
               pipeline_segment.NULL } := rfl

/-- One call of `Run()` on the segment filter when the input queue has a front
item and the output queue is open and not full: the item moves, transformed,
to the back of the output queue. -/
theorem segment_Run_item (q out : Nat) (t : Val → Val) (w : World) (v : Val) (rest : List Val)
    (hq : (w q).items = v :: rest) (hne : q ≠ out) (ho : (w out).closed = false)
    (hcap : (w out).items.length < (w out).cap) :
    (filter.filter_chain
        (filter.filter_chain (filter.filter_thread_point q)
          (filter.filter_function (pure_fn t) Nothing))
        (filter.filter_function (do_consume (push out)) (close out))).Run w =
      .ok (true, Function.update
        (Function.update w q { w q with items := rest, log := (w q).log ++ [QEvent.pop v] })
        out { w out with items := (w out).items ++ [t v],
                         log := (w out).log ++ [QEvent.push (t v)] }) := by
  have hne' : out ≠ q := fun h => hne h.symm
  simp [filter.Run, filter.RunWith, filter.Apply, chain, wait_pop, hq, Eff.andThen, Eff.ret,
    pure_fn, do_consume, push, ignore, Function.update_noteq hne', ho, Nat.not_le.mpr hcap]

/-- One call of `Run()` on the segment filter when the input queue is closed and
empty: false, nothing changes. -/
theorem segment_Run_drained (q : Nat) (F2 F3 : filter) (w : World)
    (hq : (w q).items = []) (hc : (w q).closed = true) :
    (filter.filter_chain (filter.filter_chain (filter.filter_thread_point q) F2) F3).Run w =
      .ok (false, w) := by
  simp [filter.Run, filter.RunWith, wait_pop, hq, hc, Eff.andThen, Eff.ret]

/-- The loop of `RunFilter` on the segment filter: it makes one call of `Run` per
item and one more, and moves every item, transformed, to the output queue. -/
theorem segment_loop (q out : Nat) (t : Val → Val) (hne : q ≠ out) :
    ∀ (xs : List Val) (w : World) (fuel : Nat),
      (w q).items = xs → (w q).closed = true → (w out).closed = false →
      (w out).items.length + xs.length ≤ (w out).cap → xs.length + 1 ≤ fuel →
      ∃ w1, RunFilter.loop
          (filter.filter_chain
            (filter.filter_chain (filter.filter_thread_point q)
              (filter.filter_function (pure_fn t) Nothing))
            (filter.filter_function (do_consume (push out)) (close out))) fuel w =
          .ok (xs.length + 1, w1) ∧
        w1 q = { w q with items := [], log := (w q).log ++ xs.map QEvent.pop } ∧
        w1 out = { w out with items := (w out).items ++ xs.map t,
                              log := (w out).log ++ (xs.map t).map QEvent.push } ∧
        ∀ r, r ≠ q → r ≠ out → w1 r = w r := by
  intro xs
  induction xs with
  | nil =>
    intro w fuel hq hc ho hcap hfuel
    obtain ⟨fuel, rfl⟩ : ∃ k, fuel = k + 1 := ⟨fuel - 1, by omega⟩
    refine ⟨w, ?_, ?_, ?_, fun _ _ _ => rfl⟩
    · simp [RunFilter.loop, segment_Run_drained q _ _ w hq hc]
    · cases hw : w q
      simp [hw] at hq
      simp [hq]
    · cases hw : w out
      simp
  | cons v rest ih =>
    intro w fuel hq hc ho hcap hfuel
    obtain ⟨fuel, rfl⟩ : ∃ k, fuel = k + 1 := ⟨fuel - 1, by simp at hfuel; omega⟩
    have hne' : out ≠ q := fun h => hne h.symm
    simp only [List.length_cons] at hcap hfuel
    have hstep := segment_Run_item q out t w v rest hq hne ho (by omega)
    obtain ⟨w1, hloop, h1q, h1o, h1r⟩ := ih
      (Function.update
        (Function.update w q { w q with items := rest, log := (w q).log ++ [QEvent.pop v] })
        out { w out with items := (w out).items ++ [t v],
                         log := (w out).log ++ [QEvent.push (t v)] })
      fuel
      (by simp [Function.update_noteq hne])
      (by simp [Function.update_noteq hne, hc])
      (by simp [ho])
      (by simp; omega)
      (by omega)
    refine ⟨w1, ?_, ?_, ?_, ?_⟩
    · simp [RunFilter.loop, hstep, hloop]
    · rw [h1q]
      simp [Function.update_noteq hne]
    · rw [h1o]
      simp
    · intro r hrq hro
      rw [h1r r hrq hro]
      simp [Function.update_noteq hro, Function.update_noteq hrq]

/-- C6.  One worker on the segment `Source(q) | Filter(t) | SinkAndClose(out)`,
started (start latch at 0, barrier constructed), with `q` holding `xs` and
closed, `out` another queue that is open and has room for `xs`.  With fuel for
`|xs| + 1` iterations the worker returns after exactly `|xs| + 1` calls of
`Run`; it has emptied `q`; `out` holds its former items followed by `map t xs`
in order and is closed; the history of `out` is extended by the pushes of
`map t xs` followed by exactly one close, so `Close` closed it once and after
the last push; no other queue changed; the worker has arrived at the barrier. -/
theorem RunFilter_segment (q out : Nat) (t : Val → Val) (xs : List Val) (w : World)
    (pex : PipelineExecution) (b : barrier) (fuel : Nat)
    (hne : q ≠ out) (hq : (w q).items = xs) (hc : (w q).closed = true)
    (ho : (w out).closed = false) (hcap : (w out).items.length + xs.length ≤ (w out).cap)
    (hstart : pex.start_ = 0) (hb : pex.thread_end_ = some b) (hfuel : xs.length + 1 ≤ fuel) :
    ∃ f pex1 w1,
      source_transform_sink q (Filter (pure_fn t)) out =
        some { leading_ := none, chain_ := pipeline_segment.NULL,
               trailing_ := pipeline_segment.mk f pipeline_segment.NULL } ∧
      RunFilter fuel pex f w = .ok ((xs.length + 1, pex1), w1) ∧
      pex.arrive = some pex1 ∧
      w1 q = { w q with items := [], log := (w q).log ++ xs.map QEvent.pop } ∧
      w1 out = { items := (w out).items ++ xs.map t
                 closed := true
                 cap := (w out).cap
                 log := (w out).log ++ (xs.map t).map QEvent.push ++ [QEvent.close] } ∧
      ∀ r, r ≠ q → r ≠ out → w1 r = w r := by
  obtain ⟨w1, hloop, h1q, h1o, h1r⟩ := segment_loop q out t hne xs w fuel hq hc ho hcap hfuel
  have harr : ∃ pex1, pex.arrive = some pex1 := by
    simp [PipelineExecution.arrive, hb]
  obtain ⟨pex1, hpex1⟩ := harr
  refine ⟨_, pex1, Function.update w1 out
      { w1 out with closed := true, log := (w1 out).log ++ [QEvent.close] },
    source_transform_sink_eq q out (pure_fn t), ?_, hpex1, ?_, ?_, ?_⟩
  · unfold RunFilter
    simp only [hstart, hloop, hpex1]
    simp [filter.Close, Nothing, close, Eff.andThen, Eff.ret]
  · simp [Function.update_noteq hne, h1q]
  · simp [h1o]
  · intro r hrq hro
    simp [Function.update_noteq hro, h1r r hrq hro]

/-- C6 on `xs = [1, 2, 3]` and `t = x → 2 x`, and on `xs = []`, with the start
latch released and a barrier of one thread. -/
theorem RunFilter_segment_witness :
    (∃ f pex1 w1,
      source_transform_sink 0 (Filter (pure_fn fun v =>
          match v with
          | Val.num n => Val.num (2 * n)
          | Val.term => Val.term)) 1 =
        some { leading_ := none, chain_ := pipeline_segment.NULL,
               trailing_ := pipeline_segment.mk f pipeline_segment.NULL } ∧
      RunFilter 4 { PipelineExecution.init (Source 0) with
          start_ := 0, thread_end_ := some { num_threads := 1, arrived := 0 } } f
        (closed_input [Val.num 1, Val.num 2, Val.num 3]) = .ok ((4, pex1), w1) ∧
      pex1.done_ = true ∧
      (w1 0).items = [] ∧
      (w1 1).items = [Val.num 2, Val.num 4, Val.num 6] ∧ (w1 1).closed = true ∧
      (w1 1).log = [QEvent.push (Val.num 2), QEvent.push (Val.num 4), QEvent.push (Val.num 6),
        QEvent.close]) ∧
    (∃ f pex1 w1,
      source_transform_sink 0 (Filter (pure_fn id)) 1 =
        some { leading_ := none, chain_ := pipeline_segment.NULL,
               trailing_ := pipeline_segment.mk f pipeline_segment.NULL } ∧
      RunFilter 1 { PipelineExecution.init (Source 0) with
          start_ := 0, thread_end_ := some { num_threads := 1, arrived := 0 } } f
        (closed_input []) = .ok ((1, pex1), w1) ∧
      (w1 1).items = [] ∧ (w1 1).log = [QEvent.close]) := by
  constructor
  · obtain ⟨f, pex1, w1, h1, h2, h3, h4, h5, _⟩ := RunFilter_segment 0 1
      (fun v =>
        match v with
        | Val.num n => Val.num (2 * n)
        | Val.term => Val.term)
      [Val.num 1, Val.num 2, Val.num 3]
      (closed_input [Val.num 1, Val.num 2, Val.num 3])
      { PipelineExecution.init (Source 0) with
        start_ := 0, thread_end_ := some { num_threads := 1, arrived := 0 } }
      { num_threads := 1, arrived := 0 } 4
      (by decide) rfl rfl rfl (by decide) rfl rfl (by decide)
    refine ⟨f, pex1, w1, h1, h2, ?_, ?_, ?_, ?_, ?_⟩
    · simp [PipelineExecution.arrive, PipelineExecution.threads_done] at h3
      rw [← h3]
    · rw [h4]
    · rw [h5]; rfl
    · rw [h5]
    · rw [h5]; rfl
  · obtain ⟨f, pex1, w1, h1, h2, _, _, h5, _⟩ := RunFilter_segment 0 1 id []
      (closed_input [])
      { PipelineExecution.init (Source 0) with
        start_ := 0, thread_end_ := some { num_threads := 1, arrived := 0 } }
      { num_threads := 1, arrived := 0 } 1
      (by decide) rfl rfl rfl (by decide) rfl rfl (by decide)
    exact ⟨f, pex1, w1, h1, h2, by rw [h5]; rfl, by rw [h5]; rfl⟩

end gcl

namespace gcl

/-! ## Ownership -/

theorem heap_filter_clone_fresh (f : heap_filter) (n : Nat) :
    n < (f.clone n).2 ∧ ∀ a ∈ (f.clone n).1.nodes, n ≤ a ∧ a < (f.clone n).2 := by
  induction f generalizing n with
  | filter_function addr f c => simp [heap_filter.clone, heap_filter.nodes]
  | filter_chain addr x y ihx ihy =>
    have hx := ihx n
    have hy := ihy (x.clone n).2
    refine ⟨?_, ?_⟩
    · simp only [heap_filter.clone]
      omega
    · intro a ha
      simp only [heap_filter.clone, heap_filter.nodes, List.mem_cons, List.mem_append] at ha ⊢
      rcases ha with rfl | ha | ha
      · omega
      · have := hx.2 a ha
        omega
      · have := hy.2 a ha
        omega
  | filter_thread_point addr q => simp [heap_filter.clone, heap_filter.nodes]

theorem heap_filter_clone_value (f : heap_filter) (n : Nat) : (f.clone n).1.value = f.value := by
  induction f generalizing n with
  | filter_function addr f c => rfl
  | filter_chain addr x y ihx ihy => simp [heap_filter.clone, heap_filter.value, ihx, ihy]
  | filter_thread_point addr q => rfl

theorem heap_segment_clone_fresh (s : heap_segment) (n : Nat) :
    n ≤ (s.clone n).2 ∧ ∀ a ∈ (s.clone n).1.nodes, n ≤ a ∧ a < (s.clone n).2 := by
  induction s generalizing n with
  | NULL => simp [heap_segment.clone, heap_segment.nodes]
  | mk addr f next ih =>
    have hf := heap_filter_clone_fresh f n
    have hn := ih (f.clone n).2
    refine ⟨?_, ?_⟩
    · simp only [heap_segment.clone]
      omega
    · intro a ha
      simp only [heap_segment.clone, heap_segment.nodes, List.mem_cons, List.mem_append] at ha ⊢
      rcases ha with rfl | ha | ha
      · omega
      · have := hf.2 a ha
        omega
      · have := hn.2 a ha
        omega

theorem heap_segment_clone_value (s : heap_segment) (n : Nat) : (s.clone n).1.value = s.value := by
  induction s generalizing n with
  | NULL => rfl
  | mk addr f next ih =>
    simp [heap_segment.clone, heap_segment.value, ih, heap_filter_clone_value]

/-- Forgetting addresses turns `operator|(Simple, Full)` of the addressed model
into that of the value model. -/
theorem heap_pipe_simple_full_value (p1 : heap_simple_plan) (p2 : heap_full_plan) (n : Nat) :
    (heap_pipe_simple_full p1 p2 n).1.value = pipe_simple_full p1.value p2.value := by
  obtain ⟨l, c, t⟩ := p2
  cases l <;>
    simp [heap_pipe_simple_full, pipe_simple_full, heap_full_plan.value, heap_simple_plan.value,
      heap_segment_clone_value, heap_filter_clone_value, FullPipelinePlan.chain_clone,
      FullPipelinePlan.trailing_clone, segment_clone_eq, filter_clone_eq, heap_filter.value]

/-- The overload `operator|(Simple, Simple)` allocates every node of its result. -/
theorem heap_pipe_simple_simple_fresh (p1 p2 : heap_simple_plan) (n : Nat) :
    ∀ a ∈ (heap_pipe_simple_simple p1 p2 n).1.f_.nodes, n ≤ a := by
  intro a ha
  have h1 := heap_filter_clone_fresh p1.f_ n
  have h2 := heap_filter_clone_fresh p2.f_ (p1.f_.clone n).2
  simp only [heap_pipe_simple_simple, heap_filter.nodes, List.mem_cons, List.mem_append] at ha
  rcases ha with rfl | ha | ha
  · omega
  · exact (h1.2 a ha).1
  · have := h2.2 a ha
    omega

/-- The overload `operator|(Simple, Full)` on a full plan without leading filter allocates
every node of its result. -/
theorem heap_pipe_simple_full_fresh (p1 : heap_simple_plan) (p2 : heap_full_plan) (n : Nat)
    (h : p2.leading_ = none) :
    ∀ a ∈ (heap_pipe_simple_full p1 p2 n).1.nodes, n ≤ a := by
  intro a ha
  have h1 := heap_filter_clone_fresh p1.f_ n
  have h2 := heap_segment_clone_fresh p2.chain_ (p1.f_.clone n).2
  have h3 := heap_segment_clone_fresh p2.trailing_ (p2.chain_.clone (p1.f_.clone n).2).2
  simp only [heap_pipe_simple_full, h, heap_full_plan.nodes, List.mem_append] at ha
  rcases ha with (ha | ha) | ha
  · exact (h1.2 a ha).1
  · have := h2.2 a ha
    omega
  · have := h3.2 a ha
    omega

theorem heap_leading_clone_fresh (p : heap_full_plan) (n : Nat) :
    n ≤ (p.leading_clone n).2 ∧
      ∀ l, (p.leading_clone n).1 = some l → ∀ a ∈ l.nodes, n ≤ a ∧ a < (p.leading_clone n).2 := by
  obtain ⟨l, c, t⟩ := p
  cases l with
  | none => simp [heap_full_plan.leading_clone]
  | some l =>
    have h := heap_filter_clone_fresh l n
    refine ⟨by simp only [heap_full_plan.leading_clone]; omega, ?_⟩
    intro l1 hl1 a ha
    simp only [heap_full_plan.leading_clone, Option.some.injEq] at hl1
    subst hl1
    exact h.2 a ha

theorem heap_chain_segment_fresh (s : heap_segment) (f : Option heap_filter) (n : Nat)
    (r : heap_segment × Nat) (h : heap_chain_segment s f n = some r) :
    n ≤ r.2 ∧ ∀ a ∈ r.1.nodes, n ≤ a ∧ a < r.2 := by
  rcases s with _ | ⟨addr, sf, next⟩
  · simp [heap_chain_segment] at h
  · cases f with
    | none => simp [heap_chain_segment] at h
    | some f =>
      simp only [heap_chain_segment, Option.some.injEq] at h
      subst h
      have h1 := heap_filter_clone_fresh sf n
      have h2 := heap_filter_clone_fresh f (sf.clone n).2
      refine ⟨by simp only; omega, ?_⟩
      intro a ha
      simp only [heap_segment.nodes, heap_filter.nodes, List.mem_cons, List.mem_append,
        List.append_nil] at ha ⊢
      rcases ha with rfl | rfl | ha | ha
      · omega
      · omega
      · have := h1.2 a ha
        omega
      · have := h2.2 a ha
        omega

theorem heap_segment_chain_nodes (ndebug : Bool) (s p r : heap_segment)
    (h : heap_segment.chain ndebug s p = some r) :
    ∀ a ∈ r.nodes, a ∈ s.nodes ∨ a ∈ p.nodes := by
  rcases s with _ | ⟨addr, f, _ | ⟨addr2, f2, next2⟩⟩
  · simp [heap_segment.chain] at h
  · simp only [heap_segment.chain, Option.some.injEq] at h
    subst h
    intro a ha
    simp only [heap_segment.nodes, List.mem_cons, List.mem_append, List.append_nil] at ha ⊢
    tauto
  · cases ndebug with
    | false => simp [heap_segment.chain] at h
    | true =>
      simp only [heap_segment.chain, if_true, Option.some.injEq] at h
      subst h
      intro a ha
      simp only [heap_segment.nodes, List.mem_cons, List.mem_append] at ha ⊢
      tauto

/-- The overload `operator|(Full, Simple)` allocates every node of its result. -/
theorem heap_pipe_full_simple_fresh (p1 : heap_full_plan) (p2 : heap_simple_plan) (n : Nat)
    (r : heap_full_plan × Nat) (h : heap_pipe_full_simple p1 p2 n = some r) :
    ∀ a ∈ r.1.nodes, n ≤ a := by
  have h1 := heap_leading_clone_fresh p1 n
  have h2 := heap_segment_clone_fresh p1.chain_ (p1.leading_clone n).2
  simp only [heap_pipe_full_simple] at h
  split at h
  · simp at h
  · rename_i r3 h3
    have h4 := heap_chain_segment_fresh _ _ _ _ h3
    simp only [Option.some.injEq] at h
    subst h
    intro a ha
    simp only [heap_full_plan.nodes, List.mem_append] at ha
    rcases ha with (ha | ha) | ha
    · cases hl : (p1.leading_clone n).1 with
      | none => simp [hl] at ha
      | some l =>
        simp only [hl] at ha
        exact (h1.2 l hl a ha).1
    · have := h2.2 a ha
      omega
    · have := h4.2 a ha
      omega

/-- The overload `operator|(Full, Full)` allocates every node of its result. -/
theorem heap_pipe_full_full_fresh (ndebug : Bool) (p1 p2 : heap_full_plan) (n : Nat)
    (r : heap_full_plan × Nat) (h : heap_pipe_full_full ndebug p1 p2 n = some r) :
    ∀ a ∈ r.1.nodes, n ≤ a := by
  simp only [heap_pipe_full_full] at h
  split at h
  · simp at h
  · rename_i r1 h1
    have f1 := heap_chain_segment_fresh _ _ _ _ h1
    have f2 := heap_segment_clone_fresh p2.chain_ r1.2
    split at h
    · simp at h
    · rename_i p hp
      have np := heap_segment_chain_nodes _ _ _ _ hp
      have fp : ∀ a ∈ p.nodes, n ≤ a := by
        intro a ha
        rcases np a ha with ha | ha
        · exact (f1.2 a ha).1
        · have := f2.2 a ha
          omega
      split at h
      · have f3 := heap_segment_clone_fresh p1.chain_ (p2.chain_.clone r1.2).2
        split at h
        · simp at h
        · rename_i p' hp'
          have np' := heap_segment_chain_nodes _ _ _ _ hp'
          have f4 := heap_leading_clone_fresh p1 (p1.chain_.clone (p2.chain_.clone r1.2).2).2
          have f5 := heap_segment_clone_fresh p2.trailing_
            (p1.leading_clone (p1.chain_.clone (p2.chain_.clone r1.2).2).2).2
          simp only [Option.some.injEq] at h
          subst h
          intro a ha
          simp only [heap_full_plan.nodes, List.mem_append] at ha
          rcases ha with (ha | ha) | ha
          · cases hl : (p1.leading_clone (p1.chain_.clone (p2.chain_.clone r1.2).2).2).1 with
            | none => simp [hl] at ha
            | some l =>
              simp only [hl] at ha
              have := f4.2 l hl a ha
              omega
          · rcases np' a ha with ha | ha
            · have := f3.2 a ha
              omega
            · exact fp a ha
          · have := f5.2 a ha
            omega
      · have f4 := heap_leading_clone_fresh p1 (p2.chain_.clone r1.2).2
        have f5 := heap_segment_clone_fresh p2.trailing_
          (p1.leading_clone (p2.chain_.clone r1.2).2).2
        simp only [Option.some.injEq] at h
        subst h
        intro a ha
        simp only [heap_full_plan.nodes, List.mem_append] at ha
        rcases ha with (ha | ha) | ha
        · cases hl : (p1.leading_clone (p2.chain_.clone r1.2).2).1 with
          | none => simp [hl] at ha
          | some l =>
            simp only [hl] at ha
            have := f4.2 l hl a ha
            omega
        · exact fp a ha
        · have := f5.2 a ha
          omega

/-- The overload `operator|(Simple, Full)` on a full plan with a leading filter: every
filter node of `p1` and every node of `p2.leading_` is a node of the result. -/
theorem heap_pipe_simple_full_shares (p1 : heap_simple_plan) (p2 : heap_full_plan) (n : Nat)
    (l : heap_filter) (h : p2.leading_ = some l) :
    ∀ a ∈ p1.f_.nodes ++ l.nodes, a ∈ (heap_pipe_simple_full p1 p2 n).1.nodes := by
  intro a ha
  simp only [heap_pipe_simple_full, h, heap_full_plan.nodes, heap_filter.nodes, List.mem_append,
    List.mem_cons] at ha ⊢
  rcases ha with ha | ha
  · exact Or.inl (Or.inl (Or.inr (Or.inl ha)))
  · exact Or.inl (Or.inl (Or.inr (Or.inr ha)))

/-- C4, at an input where the claim fails.  `p2 = SinkAndClose(7) | Source(7)`
has a leading filter, and for it the operator behaves as claimed: the nodes of
`p2`, at 3, 4, 5, are new.  `p1 = Filter(x → x)` has its filter at address 6.
The result of `p1 | p2` has the nodes 7, 6, 3, 9, 8: its leading filter is a new
chain node at 7 whose children are the filter of `p1` at 6 and the leading
filter of `p2` at 3, neither of them cloned.  Destroying the result frees both. -/
theorem heap_pipe_simple_full_leading_shared :
    ∃ p2 r : heap_full_plan,
      (heap_pipe_simple_full (heap_SinkAndClose 7 0).1 (heap_Source 7 1).1 3).1 = p2 ∧
      (heap_SinkAndClose 7 0).1.f_.nodes = [0] ∧ (heap_Source 7 1).1.nodes = [2, 1] ∧
      p2.nodes = [3, 5, 4] ∧ p2.leading_.isSome = true ∧
      (heap_pipe_simple_full (heap_Filter (pure_fn id) 6).1 p2 7).1 = r ∧
      (heap_Filter (pure_fn id) 6).1.f_.nodes = [6] ∧
      r.nodes = [7, 6, 3, 9, 8] ∧
      (6 ∈ r.nodes ∧ 6 ∈ (heap_Filter (pure_fn id) 6).1.f_.nodes) ∧
      (3 ∈ r.nodes ∧ 3 ∈ p2.nodes) := by
  refine ⟨_, _, rfl, rfl, rfl, rfl, rfl, rfl, rfl, rfl, ?_, ?_⟩ <;> decide

end gcl

namespace gcl

/-! ## Splitting a composition at `Parallel` boundaries -/

/-- C5, at an input where the claim fails.  With `q_in = [1, 2, 3]`, closed:
split at two boundaries, `Source | Parallel(Filter(2 x)) | Parallel(Filter(x +
1)) | SinkAndClose`, and fully fused, the plan delivers `[3, 5, 7]` and closes
the output queue (workers run in turn).  Split at three boundaries, `Source |
Parallel(Filter(2 x)) | Parallel(Filter(x + 1)) | Parallel(Filter(2 x)) |
SinkAndClose`, the plan is not built (`assert(!next_)` aborts) and nothing is
delivered, while the fused plan delivers `[6, 10, 14]`; compiled with `NDEBUG`
the plan is built without its second segment, the worker reading the queue
that segment should feed is suspended, and the output queue stays empty and
open. -/
theorem split_at_three_boundaries :
    observe 4
        (canonical_plan false 0
          [(1, Filter (pure_fn times_two)), (2, Filter (pure_fn plus_one))] 3)
        (closed_input [Val.num 1, Val.num 2, Val.num 3]) 3 =
      some (none, [Val.num 3, Val.num 5, Val.num 7], true) ∧
    observe 4
        (fused_plan 0 [Filter (pure_fn times_two), Filter (pure_fn plus_one)] 3)
        (closed_input [Val.num 1, Val.num 2, Val.num 3]) 3 =
      some (none, [Val.num 3, Val.num 5, Val.num 7], true) ∧
    observe 4
        (fused_plan 0
          [Filter (pure_fn times_two), Filter (pure_fn plus_one), Filter (pure_fn times_two)] 4)
        (closed_input [Val.num 1, Val.num 2, Val.num 3]) 4 =
      some (none, [Val.num 6, Val.num 10, Val.num 14], true) ∧
    observe 4
        (canonical_plan false 0
          [(1, Filter (pure_fn times_two)), (2, Filter (pure_fn plus_one)),
           (3, Filter (pure_fn times_two))] 4)
        (closed_input [Val.num 1, Val.num 2, Val.num 3]) 4 = none ∧
    observe 4
        (canonical_plan true 0
          [(1, Filter (pure_fn times_two)), (2, Filter (pure_fn plus_one)),
           (3, Filter (pure_fn times_two))] 4)
        (closed_input [Val.num 1, Val.num 2, Val.num 3]) 4 =
      some (some Fault.blocked, [], false) := by
  refine ⟨?_, ?_, ?_, ?_, ?_⟩ <;> decide!

end gcl

namespace gcl

/-! ## `Close` and the close callbacks -/

theorem andThen_assoc {α β γ : Type} (m : Eff α) (k : α → Eff β) (h : β → Eff γ) :
    (m.andThen k).andThen h = m.andThen fun a => (k a).andThen h := by
  funext w
  simp only [Eff.andThen]
  cases m w with
  | error e => rfl
  | ok r => rfl

theorem ret_andThen {α β : Type} (a : α) (k : α → Eff β) : (Eff.ret a).andThen k = k a := rfl

theorem andThen_ret_unit (m : Eff Unit) : (m.andThen fun _ => Eff.ret ()) = m := by
  funext w
  simp only [Eff.andThen]
  cases m w with
  | error e => rfl
  | ok r => rfl

theorem run_all_append (xs ys : List (Eff Unit)) :
    run_all (xs ++ ys) = (run_all xs).andThen fun _ => run_all ys := by
  induction xs with
  | nil => rfl
  | cons c rest ih =>
    show (c.andThen fun _ => run_all (rest ++ ys)) = _
    rw [ih]
    simp only [run_all, andThen_assoc]

theorem Close_eq_run_all (f : filter) : f.Close = run_all f.close_callbacks := by
  induction f with
  | filter_function f c =>
    simp only [filter.Close, filter.close_callbacks, run_all, andThen_ret_unit]
  | filter_chain a b iha ihb =>
    simp only [filter.Close, filter.close_callbacks, run_all_append, iha, ihb]
  | filter_thread_point q => rfl

/-- C11.  One call of `Close` on a filter built from function, chain and source
filters is the sequence of the close callbacks of its function-filter leaves,
from left to right, each invoked once (the list has one entry per function
leaf and none for a source leaf; a chain contributes those of `first_`, then
those of `second_`; a callback that throws ends the call).  Hence, when the worker of a registered filter runs to
completion, the callbacks were invoked in that way exactly once: in the world
the loop left, after the last `Run`, and before the arrival at the barrier. -/
theorem Close_invokes_callbacks (f : filter) :
    f.Close = run_all f.close_callbacks ∧
    (∀ (g : Val → Eff Val) (c : Eff Unit),
      (filter.filter_function g c).close_callbacks = [c]) ∧
    (∀ q, (filter.filter_thread_point q).close_callbacks = []) ∧
    (∀ a b : filter,
      (filter.filter_chain a b).close_callbacks = a.close_callbacks ++ b.close_callbacks) ∧
    (∀ (fuel : Nat) (pex pex1 : PipelineExecution) (w w2 : World) (n : Nat),
      RunFilter fuel pex f w = .ok ((n, pex1), w2) →
      ∃ w1, RunFilter.loop f fuel w = .ok (n, w1) ∧
        run_all f.close_callbacks w1 = .ok ((), w2) ∧ pex.arrive = some pex1) := by
  refine ⟨Close_eq_run_all f, fun _ _ => rfl, fun _ => rfl, fun _ _ => rfl, ?_⟩
  intro fuel pex pex1 w w2 n h
  rw [← Close_eq_run_all]
  unfold RunFilter at h
  split at h
  · cases h
  · split at h
    · cases h
    · rename_i n1 w1 hloop
      split at h
      · cases h
      · rename_i u w3 hclose
        split at h
        · cases h
        · rename_i pex2 harr
          simp only [Except.ok.injEq, Prod.mk.injEq] at h
          obtain ⟨⟨rfl, rfl⟩, rfl⟩ := h
          exact ⟨w1, hloop, hclose, harr⟩

/-- C11 on the filter of `Source(0) | Filter(x → x) | SinkAndClose(1)` with
queue 0 closed and empty: the worker runs to completion, and the callbacks run
in the world the loop left close queue 1. -/
theorem Close_invokes_callbacks_witness :
    ∃ pex1 w2 w1,
      RunFilter 1
        { PipelineExecution.init (Source 0) with
          start_ := 0, thread_end_ := some { num_threads := 1, arrived := 0 } }
        (filter.filter_chain
          (filter.filter_chain (filter.filter_thread_point 0) same.f_) (SinkAndClose 1).f_)
        (closed_input []) = .ok ((1, pex1), w2) ∧
      RunFilter.loop
        (filter.filter_chain
          (filter.filter_chain (filter.filter_thread_point 0) same.f_) (SinkAndClose 1).f_)
        1 (closed_input []) = .ok (1, w1) ∧
      run_all
        (filter.filter_chain
          (filter.filter_chain (filter.filter_thread_point 0) same.f_)
          (SinkAndClose 1).f_).close_callbacks w1 = .ok ((), w2) ∧
      (w2 1).closed = true := by
  have h : RunFilter 1
      { PipelineExecution.init (Source 0) with
        start_ := 0, thread_end_ := some { num_threads := 1, arrived := 0 } }
      (filter.filter_chain
        (filter.filter_chain (filter.filter_thread_point 0) same.f_) (SinkAndClose 1).f_)
      (closed_input []) = .ok ((1, _), _) := rfl
  obtain ⟨w1, h1, h2, _⟩ := (Close_invokes_callbacks _).2.2.2.2 _ _ _ _ _ _ h
  exact ⟨_, _, w1, h, h1, h2, rfl⟩

end gcl

namespace gcl

/-! ## The plan algebra: structure of the results -/

/-- What `operator|(Full, Simple)` builds on a plan whose trailing segment is
present and has no successor. -/
theorem pipe_full_simple_some (p1 : FullPipelinePlan) (p2 : SimplePipelinePlan) (tf : filter)
    (h : p1.trailing_ = pipeline_segment.mk tf pipeline_segment.NULL) :
    pipe_full_simple p1 p2 =
      some { leading_ := p1.leading_
             chain_ := p1.chain_
             trailing_ := pipeline_segment.mk (filter.filter_chain tf p2.f_)
               pipeline_segment.NULL } := by
  obtain ⟨l, c, t⟩ := p1
  simp only at h
  subst h
  simp [pipe_full_simple, chain_segment, plan_leading_clone_eq, FullPipelinePlan.chain_clone,
    segment_clone_eq, filter_clone_eq]

/-- C12.  For a full plan `p1` whose trailing segment is present and is the last
one, and a simple plan `p2`, `p1 | p2` is built; its leading and its chain are
those of `p1`; its trailing is one segment, without successor, whose filter is
the chain filter of `p1`'s trailing filter and `p2`'s filter.  The trailing
filter of `p1` is all that is reachable from `p1.trailing_`, and it is the
`first_` of the new filter, so nothing is dropped. -/
theorem pipe_full_simple_extends_trailing (p1 : FullPipelinePlan) (p2 : SimplePipelinePlan)
    (tf : filter) (h : p1.trailing_ = pipeline_segment.mk tf pipeline_segment.NULL) :
    pipe_full_simple p1 p2 =
      some { leading_ := p1.leading_
             chain_ := p1.chain_
             trailing_ := pipeline_segment.mk (filter.filter_chain tf p2.f_)
               pipeline_segment.NULL } ∧
    p1.trailing_.filters = [tf] := by
  refine ⟨pipe_full_simple_some p1 p2 tf h, ?_⟩
  rw [h]
  rfl

/-- C12 on `Source(0) | Filter(x → x)`. -/
theorem pipe_full_simple_extends_trailing_witness :
    pipe_full_simple (Source 0) same =
      some { leading_ := none
             chain_ := pipeline_segment.NULL
             trailing_ := pipeline_segment.mk
               (filter.filter_chain (filter.filter_thread_point 0) same.f_)
               pipeline_segment.NULL } ∧
    (Source 0).trailing_.filters = [filter.filter_thread_point 0] :=
  pipe_full_simple_extends_trailing (Source 0) same (filter.filter_thread_point 0) rfl

/-- The parts of the result of `operator|(Simple, Full)`. -/
theorem pipe_simple_full_parts (p1 : SimplePipelinePlan) (p2 : FullPipelinePlan) :
    pipe_simple_full p1 p2 =
      { leading_ :=
          match p2.leading_ with
          | some l => some (filter.filter_chain p1.f_ l)
          | none => some p1.f_
        chain_ := p2.chain_
        trailing_ := p2.trailing_ } := by
  cases h : p2.leading_ <;>
    simp [pipe_simple_full, h, FullPipelinePlan.chain_clone, FullPipelinePlan.trailing_clone,
      segment_clone_eq, filter_clone_eq]

/-- C13.  For a simple plan `p1` and a full plan `p2`, the chain and the trailing
of `p1 | p2` are those of `p2`; its leading is the chain filter of `p1`'s filter
and `p2`'s leading when `p2` has one, and `p1`'s filter alone when it has
none. -/
theorem pipe_simple_full_prepends (p1 : SimplePipelinePlan) (p2 : FullPipelinePlan) :
    (pipe_simple_full p1 p2).chain_ = p2.chain_ ∧
    (pipe_simple_full p1 p2).trailing_ = p2.trailing_ ∧
    (∀ l, p2.leading_ = some l →
      (pipe_simple_full p1 p2).leading_ = some (filter.filter_chain p1.f_ l)) ∧
    (p2.leading_ = none → (pipe_simple_full p1 p2).leading_ = some p1.f_) := by
  refine ⟨?_, ?_, ?_, ?_⟩
  · simp [pipe_simple_full, FullPipelinePlan.chain_clone, segment_clone_eq]
  · simp [pipe_simple_full, FullPipelinePlan.trailing_clone, segment_clone_eq]
  · intro l h
    simp [pipe_simple_full, h]
  · intro h
    simp [pipe_simple_full, h, filter_clone_eq]

/-- C13 on `Filter(x → x) | Source(0)`, which has no leading, and on
`Filter(x → x) | (SinkAndClose(1) | Source(1))`, which has one. -/
theorem pipe_simple_full_prepends_witness :
    (pipe_simple_full same (Source 0)).leading_ = some same.f_ ∧
    (pipe_simple_full same (pipe_simple_full (SinkAndClose 1) (Source 1))).leading_ =
      some (filter.filter_chain same.f_ (SinkAndClose 1).f_) :=
  ⟨(pipe_simple_full_prepends same (Source 0)).2.2.2 rfl,
    (pipe_simple_full_prepends same (pipe_simple_full (SinkAndClose 1) (Source 1))).2.2.1
      (SinkAndClose 1).f_ rfl⟩

/-- What `Parallel` builds. -/
theorem Parallel_some (q : Nat) (p : SimplePipelinePlan) :
    Parallel q p =
      some { leading_ := some (SinkAndClose q).f_
             chain_ := pipeline_segment.NULL
             trailing_ := pipeline_segment.mk
               (filter.filter_chain (filter.filter_thread_point q) p.f_)
               pipeline_segment.NULL } := by
  simp [Parallel, pipe_full_simple, pipe_simple_full, chain_segment, Source, SinkAndClose,
    ConsumeClose, FullPipelinePlan.leading_clone, FullPipelinePlan.chain_clone,
    FullPipelinePlan.trailing_clone, pipeline_segment.clone, filter.clone, filter_clone_eq]

/-- C14.  `Parallel(p)` is `SinkAndClose(q) | Source(q) | p` for the queue `q`
it allocates, new, empty, open and of capacity 10.  It is built; its leading is
the filter of `SinkAndClose(q)`, whose `Apply` pushes its input into `q` and
returns `PipelineTerm()` and whose `Close` closes `q`; its chain is empty; its
trailing is one segment, without successor, whose filter is the chain of the
source reading `q` and the filter of `p`. -/
theorem Parallel_is_sink_source (q : Nat) (p : SimplePipelinePlan) :
    Parallel q p = pipe_full_simple (pipe_simple_full (SinkAndClose q) (Source q)) p ∧
    Parallel q p =
      some { leading_ := some (SinkAndClose q).f_
             chain_ := pipeline_segment.NULL
             trailing_ := pipeline_segment.mk
               (filter.filter_chain (filter.filter_thread_point q) p.f_)
               pipeline_segment.NULL } ∧
    (∀ v, (SinkAndClose q).f_.Apply v = (push q v).andThen fun _ => Eff.ret Val.term) ∧
    (SinkAndClose q).f_.Close = close q ∧
    (∀ (v : Val) (w : World), (w q).closed = false → (w q).items.length < (w q).cap →
      (SinkAndClose q).f_.Apply v w =
        .ok (Val.term, Function.update w q
          { w q with items := (w q).items ++ [v], log := (w q).log ++ [QEvent.push v] })) ∧
    Parallel.new_queue = { items := [], closed := false, cap := 10, log := [] } := by
  refine ⟨rfl, Parallel_some q p, fun _ => rfl, rfl, ?_, rfl⟩
  · intro v w ho hcap
    simp [SinkAndClose, ConsumeClose, filter.Apply, do_consume, push, ho, Nat.not_le.mpr hcap,
      Eff.andThen, Eff.ret]

/-- C14 on a new queue at address 1: the leading of `Parallel(Filter(x → x))`
applied to `5` puts `5` into the queue. -/
theorem Parallel_is_sink_source_witness :
    (SinkAndClose 1).f_.Apply (Val.num 5) (closed_input []) =
      .ok (Val.term, Function.update (closed_input []) 1
        { closed_input [] 1 with
          items := (closed_input [] 1).items ++ [Val.num 5]
          log := (closed_input [] 1).log ++ [QEvent.push (Val.num 5)] }) :=
  (Parallel_is_sink_source 1 same).2.2.2.2.1 (Val.num 5) (closed_input []) rfl (by decide)

/-- Joining onto a full plan without leading filter builds nothing: the free
function `chain` calls `clone()` through the null `p2.leading_`. -/
theorem pipe_full_full_no_leading (ndebug : Bool) (p1 p2 : FullPipelinePlan)
    (h : p2.leading_ = none) : pipe_full_full ndebug p1 p2 = none := by
  obtain ⟨l1, c1, t1⟩ := p1
  cases t1 <;> simp [pipe_full_full, chain_segment, h]

/-- C17, at an input where the claim fails.  `p1 = Source(0) | SinkAndClose(1)`
and `p2 = Source(2)` are built, `p1` ends in `PipelineTerm` and `p2` starts from
it, so `p1 | p2` is well typed; `p2` has no leading filter; `p1 | p2` is not
defined, in either build mode: `f->clone()` is called on the null
`p2.leading_`. -/
theorem pipe_full_full_onto_source :
    ∃ p1 : FullPipelinePlan,
      pipe_full_simple (Source 0) (SinkAndClose 1) = some p1 ∧
      p1.chain_.filters = [] ∧
      (Source 2).leading_.isNone = true ∧
      pipe_full_full false p1 (Source 2) = none ∧
      pipe_full_full true p1 (Source 2) = none :=
  ⟨_, rfl, rfl, rfl, rfl, rfl⟩

/-! ## Associativity of the composition of simple plans -/

/-- C20.  For simple plans `a`, `b`, `c` and every input `x`, `((a | b) |
c).Apply(x)` and `(a | (b | c)).Apply(x)` are the same computation (same value,
same effects, same faults); `Close` on the two filters is the same
computation; and both invoke the close callbacks of `a`, then of `b`, then of
`c`. -/
theorem pipe_simple_simple_assoc (a b c : SimplePipelinePlan) (x : Val) :
    (pipe_simple_simple (pipe_simple_simple a b) c).Apply x =
      (pipe_simple_simple a (pipe_simple_simple b c)).Apply x ∧
    (pipe_simple_simple (pipe_simple_simple a b) c).f_.Close =
      (pipe_simple_simple a (pipe_simple_simple b c)).f_.Close ∧
    (pipe_simple_simple (pipe_simple_simple a b) c).f_.close_callbacks =
      a.f_.close_callbacks ++ b.f_.close_callbacks ++ c.f_.close_callbacks ∧
    (pipe_simple_simple a (pipe_simple_simple b c)).f_.close_callbacks =
      a.f_.close_callbacks ++ b.f_.close_callbacks ++ c.f_.close_callbacks ∧
    (pipe_simple_simple (pipe_simple_simple a b) c).f_.Close =
      run_all (a.f_.close_callbacks ++ b.f_.close_callbacks ++ c.f_.close_callbacks) := by
  have hcb : (pipe_simple_simple (pipe_simple_simple a b) c).f_.close_callbacks =
      a.f_.close_callbacks ++ b.f_.close_callbacks ++ c.f_.close_callbacks := by
    simp [pipe_simple_simple, filter.close_callbacks, filter_clone_eq, filter.clone]
  refine ⟨?_, ?_, hcb, ?_, ?_⟩
  · simp only [pipe_simple_simple, SimplePipelinePlan.Apply, filter.Apply, filter_clone_eq,
      filter.clone, andThen_assoc]
  · simp only [pipe_simple_simple, filter.Close, filter_clone_eq, filter.clone, andThen_assoc]
  · simp [pipe_simple_simple, filter.close_callbacks, filter_clone_eq, filter.clone]
  · rw [Close_eq_run_all, hcb]

end gcl

namespace gcl

/-! ## Invariants of built plans -/

theorem SimpleBuilt_functions_only (p : SimplePipelinePlan) (h : SimpleBuilt p) :
    p.f_.functions_only = true := by
  induction h with
  | Filter f => rfl
  | Consume c => rfl
  | ConsumeClose c cl => rfl
  | pipe p1 p2 _ _ ih1 ih2 =>
    simp [pipe_simple_simple, filter.functions_only, filter_clone_eq, ih1, ih2]

/-- The shape of every built full plan: the trailing segment is present and
has no successor; the leading filter, if any, has function filters only; the
filter of every segment starts from a source and has function filters
elsewhere. -/
theorem FullBuilt_shape (ndebug : Bool) (p : FullPipelinePlan) (h : FullBuilt ndebug p) :
    (∃ tf, p.trailing_ = pipeline_segment.mk tf pipeline_segment.NULL) ∧
    (∀ l, p.leading_ = some l → l.functions_only = true) ∧
    (∀ f ∈ p.chain_.filters ++ p.trailing_.filters, f.source_led.isSome = true) := by
  induction h with
  | Source b =>
    refine ⟨⟨_, rfl⟩, ?_, ?_⟩
    · intro l hl
      simp [Source] at hl
    · intro f hf
      simp [Source, pipeline_segment.filters] at hf
      subst hf
      rfl
  | Parallel q s r hs hr =>
    rw [Parallel_some q s] at hr
    simp only [Option.some.injEq] at hr
    subst hr
    have hfs := SimpleBuilt_functions_only s hs
    refine ⟨⟨_, rfl⟩, ?_, ?_⟩
    · intro l hl
      simp only [Option.some.injEq] at hl
      subst hl
      rfl
    · intro f hf
      simp [pipeline_segment.filters] at hf
      subst hf
      simp [filter.source_led, hfs]
  | full_simple p1 p2 r _ h2 hr ih =>
    obtain ⟨⟨tf, htf⟩, hl, hseg⟩ := ih
    rw [pipe_full_simple_some p1 p2 tf htf] at hr
    simp only [Option.some.injEq] at hr
    subst hr
    have hfs := SimpleBuilt_functions_only p2 h2
    refine ⟨⟨_, rfl⟩, hl, ?_⟩
    intro f hf
    simp only [pipeline_segment.filters, List.mem_append, List.mem_singleton] at hf
    rcases hf with hf | hf
    · exact hseg f (List.mem_append_left _ hf)
    · subst hf
      have := hseg tf (by simp [htf, pipeline_segment.filters])
      simp [filter.source_led, hfs, this]
  | simple_full p1 p2 h1 _ ih =>
    obtain ⟨⟨tf, htf⟩, hl, hseg⟩ := ih
    have hfs := SimpleBuilt_functions_only p1 h1
    rw [pipe_simple_full_parts p1 p2]
    refine ⟨⟨tf, htf⟩, ?_, hseg⟩
    intro l hlead
    cases hp2 : p2.leading_ with
    | none =>
      simp only [hp2, Option.some.injEq] at hlead
      subst hlead
      exact hfs
    | some l2 =>
      simp only [hp2, Option.some.injEq] at hlead
      subst hlead
      simp [filter.functions_only, hfs, hl l2 hp2]
  | full_full p1 p2 r _ _ hr ih1 ih2 =>
    obtain ⟨⟨tf1, htf1⟩, hl1, hseg1⟩ := ih1
    obtain ⟨⟨tf2, htf2⟩, hl2, hseg2⟩ := ih2
    cases hp2 : p2.leading_ with
    | none =>
      rw [pipe_full_full_no_leading ndebug p1 p2 hp2] at hr
      cases hr
    | some l2 =>
      have hjoin : (filter.filter_chain tf1 l2).source_led.isSome = true := by
        have := hseg1 tf1 (by simp [htf1, pipeline_segment.filters])
        simp [filter.source_led, hl2 l2 hp2, this]
      rw [pipe_full_full_eq ndebug p1 p2 tf1 l2 pipeline_segment.NULL htf1 hp2] at hr
      have key : ∀ c : pipeline_segment,
          (∀ f ∈ c.filters, f ∈ p1.chain_.filters ∨ f = filter.filter_chain tf1 l2 ∨
            f ∈ p2.chain_.filters) →
          r = { leading_ := p1.leading_, chain_ := c, trailing_ := p2.trailing_ } →
          (∃ tf, r.trailing_ = pipeline_segment.mk tf pipeline_segment.NULL) ∧
          (∀ l, r.leading_ = some l → l.functions_only = true) ∧
          (∀ f ∈ r.chain_.filters ++ r.trailing_.filters, f.source_led.isSome = true) := by
        intro c hc hreq
        subst hreq
        refine ⟨⟨tf2, htf2⟩, hl1, ?_⟩
        intro f hf
        simp only [List.mem_append] at hf
        rcases hf with hf | hf
        · rcases hc f hf with h | h | h
          · exact hseg1 f (List.mem_append_left _ h)
          · subst h
            exact hjoin
          · exact hseg2 f (List.mem_append_left _ h)
        · exact hseg2 f (List.mem_append_right _ hf)
      rcases hc1 : p1.chain_ with _ | ⟨f1, _ | ⟨g1, n1⟩⟩
      · rw [hc1] at hr
        simp only [Option.some.injEq] at hr
        refine key _ ?_ hr.symm
        intro f hf
        simp only [pipeline_segment.filters, List.mem_cons] at hf
        tauto
      · rw [hc1] at hr
        simp only [Option.some.injEq] at hr
        refine key _ ?_ hr.symm
        intro f hf
        simp only [hc1, pipeline_segment.filters, List.mem_cons] at hf ⊢
        tauto
      · rw [hc1] at hr
        cases ndebug with
        | false => simp at hr
        | true =>
          simp only [if_true, Option.some.injEq] at hr
          refine key _ ?_ hr.symm
          intro f hf
          simp only [hc1, pipeline_segment.filters, List.mem_cons] at hf ⊢
          tauto

/-- C18.  In every full plan built from the constructors and `operator|`, in
either build mode, the trailing segment is present and has no successor, and
`clone` keeps it so.  Hence `p | s` for a simple plan `s` is built, keeps the
chain of `p` and replaces the only segment reachable from `p.trailing_`; the
join segment of `operator|(Full, Full)` is formed from the filter of that only
segment; and `run` succeeds: it does not go through a null `trailing_`. -/
theorem FullBuilt_trailing (ndebug : Bool) (p : FullPipelinePlan) (h : FullBuilt ndebug p) :
    ∃ tf,
      p.trailing_ = pipeline_segment.mk tf pipeline_segment.NULL ∧
      p.trailing_clone = pipeline_segment.mk tf pipeline_segment.NULL ∧
      p.clone.trailing_ = pipeline_segment.mk tf pipeline_segment.NULL ∧
      p.trailing_.filters = [tf] ∧
      (∀ s : SimplePipelinePlan, ∃ r, pipe_full_simple p s = some r ∧
        r.chain_ = p.chain_ ∧
        r.trailing_ = pipeline_segment.mk (filter.filter_chain tf s.f_) pipeline_segment.NULL) ∧
      (∀ l : filter, chain_segment p.trailing_ (some l) =
        some (pipeline_segment.mk (filter.filter_chain tf l) pipeline_segment.NULL)) ∧
      (∀ pex, ∃ pex1, p.run pex = some pex1 ∧
        pex1.num_threads_ = pex.num_threads_ + p.chain_.filters.length + 1) := by
  obtain ⟨⟨tf, htf⟩, _, _⟩ := FullBuilt_shape ndebug p h
  refine ⟨tf, htf, ?_, ?_, ?_, ?_, ?_, ?_⟩
  · simp [FullPipelinePlan.trailing_clone, segment_clone_eq, htf]
  · rw [plan_clone_eq, htf]
  · rw [htf]
    rfl
  · intro s
    exact ⟨_, pipe_full_simple_some p s tf htf, rfl, rfl⟩
  · intro l
    simp [htf, chain_segment, filter_clone_eq]
  · intro pex
    refine ⟨_, FullPipelinePlan.run_eq p tf pipeline_segment.NULL pex htf, ?_⟩
    simp [PipelineExecution.foldl_execute, PipelineExecution.execute, htf,
      pipeline_segment.filters, Nat.add_assoc]

/-- C18 on `Source(0)`. -/
theorem FullBuilt_trailing_witness :
    ∃ tf,
      (Source 0).trailing_ = pipeline_segment.mk tf pipeline_segment.NULL ∧
      (Source 0).clone.trailing_ = pipeline_segment.mk tf pipeline_segment.NULL := by
  obtain ⟨tf, h1, _, h3, _⟩ := FullBuilt_trailing false (Source 0) (FullBuilt.Source 0)
  exact ⟨tf, h1, h3⟩

end gcl

namespace gcl

/-! ## What `Run(push)` reaches on a segment filter -/

theorem apply_all_append (xs ys : List (Val → Eff Val)) (v : Val) :
    apply_all (xs ++ ys) v = (apply_all xs v).andThen (apply_all ys) := by
  induction xs generalizing v with
  | nil => rfl
  | cons f rest ih =>
    show ((f v).andThen (apply_all (rest ++ ys))) = _
    have : apply_all (rest ++ ys) = fun m => (apply_all rest m).andThen (apply_all ys) :=
      funext ih
    rw [this]
    simp only [apply_all, andThen_assoc]

theorem functions_only_Apply (f : filter) (h : f.functions_only = true) (v : Val) :
    f.Apply v = apply_all f.functions v := by
  induction f generalizing v with
  | filter_function g c =>
    funext w
    simp only [filter.Apply, filter.functions, apply_all, Eff.andThen, Eff.ret]
    cases g v w with
    | error e => rfl
    | ok r => rfl
  | filter_chain a b iha ihb =>
    simp only [filter.functions_only, Bool.and_eq_true] at h
    have hb : b.Apply = apply_all b.functions := funext (ihb h.2)
    simp only [filter.Apply, filter.functions, apply_all_append, iha h.1 v, hb]
  | filter_thread_point q => simp [filter.functions_only] at h

theorem source_led_RunWith (f : filter) (q : Nat) (h : f.source_led = some q)
    (r : Val → Eff Val) :
    f.RunWith r =
      (filter.filter_thread_point q).RunWith (fun v => (apply_all f.functions v).andThen r) := by
  induction f generalizing r with
  | filter_function g c => simp [filter.source_led] at h
  | filter_chain a b iha _ =>
    simp only [filter.source_led] at h
    split at h
    · rename_i hb
      have hbA : b.Apply = apply_all b.functions := funext (functions_only_Apply b hb)
      have hc : chain b.Apply r = fun m => (apply_all b.functions m).andThen r := by
        funext m
        rw [← hbA]
        rfl
      have hk : (fun v => (apply_all a.functions v).andThen (chain b.Apply r)) =
          fun v => (apply_all (filter.filter_chain a b).functions v).andThen r := by
        funext v
        rw [hc]
        simp only [filter.functions, apply_all_append, andThen_assoc]
      show a.RunWith (chain b.Apply r) = _
      rw [iha h, hk]
    · cases h
  | filter_thread_point q1 =>
    simp only [filter.source_led, Option.some.injEq] at h
    subst h
    rfl

/-- C19.  In every plan built from the constructors and `operator|`, in either
build mode, the filter of every segment of the chain and of the trailing has a
thread-point source as its leftmost leaf and function filters as its other
leaves.  On such a filter `Run(push)` is the `Run` of that source with the
continuation that applies the user functions of the function leaves from left
to right and hands the result to `push`: it pops the queue, calls the user
functions and `push`, and nothing else, so neither `filter_function::Run` nor
`filter_thread_point::Apply` is reached. -/
theorem FullBuilt_segments_run (ndebug : Bool) (p : FullPipelinePlan) (h : FullBuilt ndebug p) :
    ∀ f ∈ p.chain_.filters ++ p.trailing_.filters,
      ∃ q, f.source_led = some q ∧
        ∀ r : Val → Eff Val,
          f.RunWith r =
            (wait_pop q).andThen fun status =>
              match status with
              | none => Eff.ret false
              | some out => ((apply_all f.functions out).andThen r).andThen fun _ => Eff.ret true := by
  intro f hf
  have hs := (FullBuilt_shape ndebug p h).2.2 f hf
  obtain ⟨q, hq⟩ := Option.isSome_iff_exists.mp hs
  refine ⟨q, hq, ?_⟩
  intro r
  rw [source_led_RunWith f q hq r]
  rfl

/-- C19 on `Source(0) | Filter(x → x)`: its only segment filter starts from the
source over queue 0. -/
theorem FullBuilt_segments_run_witness :
    ∃ q, (filter.filter_chain (filter.filter_thread_point 0) same.f_).source_led = some q ∧
      ∀ r : Val → Eff Val,
        (filter.filter_chain (filter.filter_thread_point 0) same.f_).RunWith r =
          (wait_pop q).andThen fun status =>
            match status with
            | none => Eff.ret false
            | some out =>
              ((apply_all (filter.filter_chain (filter.filter_thread_point 0) same.f_).functions
                out).andThen r).andThen fun _ => Eff.ret true :=
  FullBuilt_segments_run false
    { leading_ := none
      chain_ := pipeline_segment.NULL
      trailing_ := pipeline_segment.mk
        (filter.filter_chain (filter.filter_thread_point 0) same.f_) pipeline_segment.NULL }
    (FullBuilt.full_simple (Source 0) same _ (FullBuilt.Source 0)
      (SimpleBuilt.Filter (pure_fn id)) rfl)
    (filter.filter_chain (filter.filter_thread_point 0) same.f_)
    (by simp [pipeline_segment.filters])

end gcl

namespace gcl

/-! ## The exit paths of a worker -/

/-- C15, the part that fails.  The plan `Source(0) | Filter(throwing) |
SinkAndClose(1)` is built and its only filter is registered with the
execution.  With queue 0 holding one item, the first `Run` pops it and the user
transform throws.  The worker is left by the exception: `Close` is not called
(queue 1 is still open and has seen no operation) and the worker does not
arrive at the barrier (`RunFilter` does not return). -/
theorem RunFilter_throwing_transform :
    ∃ p pex f w1,
      source_transform_sink 0 (Filter throwing) 1 = some p ∧
      PipelineExecution.new p = some pex ∧
      pex.pool_ = [f] ∧
      RunFilter 2 pex f (closed_input [Val.num 1]) = .error (Fault.exception, w1) ∧
      (w1 0).items = [] ∧
      (w1 1).closed = false ∧ (w1 1).log = [] ∧
      (∃ w2, f.Close w1 = .ok ((), w2) ∧ (w2 1).closed = true) ∧
      pex.arrive.isSome = true :=
  ⟨_, _, _, _, rfl, rfl, rfl, rfl, rfl, rfl, rfl, ⟨_, rfl, rfl⟩, rfl⟩

/-- C15, amended.  A started worker has these exit paths.  When every call of
`Run` returns, the last one with false, `Close` is called once, in the world the
loop left; when `Close` returns, the worker arrives at the barrier, which counts
exactly one more arrival, and `RunFilter` returns.  When a call of `Run`, or
`Close`, fails, there is no handler: the failure leaves `RunFilter` in the world
of the failure, without `Close` after a failed `Run` and without arrival at
the barrier. -/
theorem RunFilter_exit_paths (fuel : Nat) (pex : PipelineExecution) (f : filter) (w : World)
    (hstart : pex.start_ = 0) :
    (∀ n w1 w2 pex1, RunFilter.loop f fuel w = .ok (n, w1) → f.Close w1 = .ok ((), w2) →
      pex.arrive = some pex1 → RunFilter fuel pex f w = .ok ((n, pex1), w2)) ∧
    (∀ b, pex.thread_end_ = some b →
      ∃ pex1, pex.arrive = some pex1 ∧
        pex1.thread_end_ = some { b with arrived := b.arrived + 1 }) ∧
    (∀ n w1 e w2, RunFilter.loop f fuel w = .ok (n, w1) → f.Close w1 = .error (e, w2) →
      RunFilter fuel pex f w = .error (e, w2)) ∧
    (∀ e w1, RunFilter.loop f fuel w = .error (e, w1) →
      RunFilter fuel pex f w = .error (e, w1)) := by
  refine ⟨?_, ?_, ?_, ?_⟩
  · intro n w1 w2 pex1 hloop hclose harr
    simp [RunFilter, hstart, hloop, hclose, harr]
  · intro b hb
    simp only [PipelineExecution.arrive, hb]
    split <;> exact ⟨_, rfl, rfl⟩
  · intro n w1 e w2 hloop hclose
    simp [RunFilter, hstart, hloop, hclose]
  · intro e w1 hloop
    simp [RunFilter, hstart, hloop]

/-- C15, amended, on the filter of `Source(0) | Filter(x → x) | SinkAndClose(1)`
with queue 0 closed and empty (the worker returns) and on that of `Source(0) |
Filter(throwing) | SinkAndClose(1)` with queue 0 holding one item (the worker
is left by the exception). -/
theorem RunFilter_exit_paths_witness :
    (∃ pex1 w2,
      RunFilter 1
        { PipelineExecution.init (Source 0) with
          start_ := 0, thread_end_ := some { num_threads := 1, arrived := 0 } }
        (filter.filter_chain
          (filter.filter_chain (filter.filter_thread_point 0) same.f_) (SinkAndClose 1).f_)
        (closed_input []) = .ok ((1, pex1), w2) ∧
      pex1.thread_end_ = some { num_threads := 1, arrived := 1 } ∧ (w2 1).closed = true) ∧
    (∃ w1,
      RunFilter 2
        { PipelineExecution.init (Source 0) with
          start_ := 0, thread_end_ := some { num_threads := 1, arrived := 0 } }
        (filter.filter_chain
          (filter.filter_chain (filter.filter_thread_point 0) (Filter throwing).f_)
          (SinkAndClose 1).f_)
        (closed_input [Val.num 1]) = .error (Fault.exception, w1) ∧
      (w1 1).closed = false) :=
  ⟨⟨_, _, (RunFilter_exit_paths 1 _ _ (closed_input []) rfl).1 1 _ _ _ rfl rfl rfl, rfl, rfl⟩,
    ⟨_, (RunFilter_exit_paths 2 _ _ (closed_input [Val.num 1]) rfl).2.2.2
      Fault.exception _ rfl, rfl⟩⟩

end gcl

namespace gcl

/-! ## The countdown latch -/

theorem latch_step_count_le (l l1 : countdown_latch) (s : latch_step)
    (h : l.step s = some l1) : l1.count ≤ l.count := by
  cases s with
  | count_down =>
    simp only [countdown_latch.step, Option.some.injEq] at h
    subst h
    simp [latch.count_down]
  | wait_call t =>
    simp only [countdown_latch.step, Option.some.injEq] at h
    subst h
    exact Nat.le_refl _
  | wait_return t =>
    simp only [countdown_latch.step] at h
    split at h
    · simp only [Option.some.injEq] at h
      subst h
      exact Nat.le_refl _
    · cases h

theorem latch_run_count_le (ops : List latch_step) :
    ∀ l l1 : countdown_latch, l.run ops = some l1 → l1.count ≤ l.count := by
  induction ops with
  | nil =>
    intro l l1 h
    simp only [countdown_latch.run, Option.some.injEq] at h
    subst h
    exact Nat.le_refl _
  | cons s rest ih =>
    intro l l1 h
    simp only [countdown_latch.run] at h
    split at h
    · cases h
    · rename_i l2 hs
      exact Nat.le_trans (ih l2 l1 h) (latch_step_count_le l l2 s hs)

theorem latch_run_count (ops : List latch_step) :
    ∀ l l1 : countdown_latch, l.run ops = some l1 →
      l1.count = l.count - ops.count latch_step.count_down := by
  induction ops with
  | nil =>
    intro l l1 h
    simp only [countdown_latch.run, Option.some.injEq] at h
    subst h
    simp
  | cons s rest ih =>
    intro l l1 h
    simp only [countdown_latch.run] at h
    split at h
    · cases h
    · rename_i l2 hs
      rw [ih l2 l1 h]
      cases s with
      | count_down =>
        simp only [countdown_latch.step, Option.some.injEq] at hs
        subst hs
        simp only [latch.count_down, List.count_cons_self]
        omega
      | wait_call t =>
        simp only [countdown_latch.step, Option.some.injEq] at hs
        subst hs
        simp [List.count_cons]
      | wait_return t =>
        simp only [countdown_latch.step] at hs
        split at hs
        · simp only [Option.some.injEq] at hs
          subst hs
          simp [List.count_cons]
        · cases hs

theorem latch_run_returned (ops : List latch_step) :
    ∀ l l1 : countdown_latch, (l.returned ≠ [] → l.count = 0) → l.run ops = some l1 →
      l1.returned ≠ [] → l1.count = 0 := by
  induction ops with
  | nil =>
    intro l l1 hinv h
    simp only [countdown_latch.run, Option.some.injEq] at h
    subst h
    exact hinv
  | cons s rest ih =>
    intro l l1 hinv h
    simp only [countdown_latch.run] at h
    split at h
    · cases h
    · rename_i l2 hs
      refine ih l2 l1 ?_ h
      cases s with
      | count_down =>
        simp only [countdown_latch.step, Option.some.injEq] at hs
        subst hs
        intro hr
        simp [latch.count_down, hinv hr]
      | wait_call t =>
        simp only [countdown_latch.step, Option.some.injEq] at hs
        subst hs
        exact hinv
      | wait_return t =>
        simp only [countdown_latch.step] at hs
        split at hs
        · rename_i hc
          simp only [Option.some.injEq] at hs
          subst hs
          intro _
          exact hc.1
        · cases hs

theorem latch_drain (ws : List Nat) :
    ∀ l : countdown_latch, l.count = 0 → l.waiting = ws →
      l.run (ws.map latch_step.wait_return) =
        some { count := 0, waiting := [], returned := l.returned ++ ws } := by
  induction ws with
  | nil =>
    intro l hc hw
    obtain ⟨c, w, r⟩ := l
    simp only at hc hw
    subst hc hw
    simp [countdown_latch.run]
  | cons t rest ih =>
    intro l hc hw
    obtain ⟨c, w, r⟩ := l
    simp only at hc hw
    subst hc hw
    simp only [List.map_cons, countdown_latch.run, countdown_latch.step, List.mem_cons, true_or,
      and_self, if_true, List.erase_cons_head]
    rw [ih _ rfl rfl]
    simp

/-- C16.  For a countdown latch initialised with count `c` and every schedule of
`count_down()` calls, entries into `wait()` and returns from `wait()`: a thread
returns from `wait()` only when the count is zero, and the count is zero at
every later time, so `get_count()` read after `wait()` is 0; while the count is
not zero no thread returns; no step increases the count and `count_down()`
decrements it; once `c` calls of `count_down()` have happened, before or after
the waiters entered, the count is zero and all the threads inside `wait()`
return. -/
theorem latch_wait_returns_at_zero (c : Nat) :
    (∀ ops l t l1, (countdown_latch.init c).run ops = some l →
      l.step (latch_step.wait_return t) = some l1 →
      l.get_count = 0 ∧ l1.get_count = 0 ∧
        ∀ ops2 l2, l1.run ops2 = some l2 → l2.get_count = 0) ∧
    (∀ ops l, (countdown_latch.init c).run ops = some l → l.returned ≠ [] → l.get_count = 0) ∧
    (∀ ops l t, (countdown_latch.init c).run ops = some l → l.get_count ≠ 0 →
      l.step (latch_step.wait_return t) = none) ∧
    (∀ (l l1 : countdown_latch) (s : latch_step), l.step s = some l1 →
      l1.get_count ≤ l.get_count) ∧
    (∀ l : countdown_latch, ∃ l1, l.step latch_step.count_down = some l1 ∧
      l1.get_count = l.get_count - 1) ∧
    (∀ ops l, (countdown_latch.init c).run ops = some l →
      c ≤ ops.count latch_step.count_down →
      l.get_count = 0 ∧
        l.run (l.waiting.map latch_step.wait_return) =
          some { count := 0, waiting := [], returned := l.returned ++ l.waiting }) := by
  refine ⟨?_, ?_, ?_, ?_, ?_, ?_⟩
  · intro ops l t l1 _ hs
    simp only [countdown_latch.step] at hs
    split at hs
    · rename_i hc
      simp only [Option.some.injEq] at hs
      subst hs
      refine ⟨hc.1, hc.1, ?_⟩
      intro ops2 l2 h2
      have := latch_run_count_le ops2 _ l2 h2
      simp only [countdown_latch.get_count]
      simp only [hc.1] at this
      omega
    · cases hs
  · intro ops l h
    exact latch_run_returned ops _ l (fun hr => absurd rfl hr) h
  · intro ops l t _ hc
    simp only [countdown_latch.get_count] at hc
    simp [countdown_latch.step, hc]
  · intro l l1 s h
    exact latch_step_count_le l l1 s h
  · intro l
    exact ⟨_, rfl, rfl⟩
  · intro ops l h hn
    have hc := latch_run_count ops _ l h
    have h0 : l.count = 0 := by
      simp only [countdown_latch.init] at hc
      omega
    exact ⟨h0, latch_drain l.waiting l h0 rfl⟩

/-- C16 on `c = 2` with the waiters 1 and 2: counted down after the waiters
entered, and counted down before; in both schedules both waiters return and
the count is then zero.  With one call of `count_down()` only, no waiter
returns. -/
theorem latch_wait_returns_at_zero_witness :
    (countdown_latch.init 2).run
        [latch_step.wait_call 1, latch_step.wait_call 2, latch_step.count_down,
         latch_step.count_down, latch_step.wait_return 1, latch_step.wait_return 2] =
      some { count := 0, waiting := [], returned := [1, 2] } ∧
    (countdown_latch.init 2).run
        [latch_step.count_down, latch_step.count_down, latch_step.wait_call 1,
         latch_step.wait_call 2, latch_step.wait_return 1, latch_step.wait_return 2] =
      some { count := 0, waiting := [], returned := [1, 2] } ∧
    (countdown_latch.init 2).run
        [latch_step.wait_call 1, latch_step.wait_call 2, latch_step.count_down,
         latch_step.wait_return 1] = none ∧
    ({ count := 0, waiting := [1, 2], returned := [] } : countdown_latch).get_count = 0 ∧
    ({ count := 0, waiting := [1, 2], returned := [] } : countdown_latch).run
        [latch_step.wait_return 1, latch_step.wait_return 2] =
      some { count := 0, waiting := [], returned := [1, 2] } := by
  refine ⟨by decide, by decide, by decide, ?_⟩
  exact (latch_wait_returns_at_zero 2).2.2.2.2.2
    [latch_step.wait_call 1, latch_step.wait_call 2, latch_step.count_down,
      latch_step.count_down]
    { count := 0, waiting := [1, 2], returned := [] } (by decide) (by decide)

end gcl
